import Mathlib

/-!
# Prolly-tree node codec, revert and in-memory repo state (dolt)

A shallow embedding of

* `go/store/prolly/message/prolly_map.go` (namespace `message`),
* `go/libraries/doltcore/merge/revert.go` (namespace `merge`),
* `go/libraries/doltcore/env/memory.go` (namespace `env`),

followed by the theorems about them.

Conventions.  Go byte slices are `List UInt8`; a slice that may be `nil` is an
`Option`, `none` being `nil`.  Machine integers are `Nat`/`Int` with the
truncation written out (`uint8`, `uint16`, `uint64`, `intOfUint64`); Go's `int`
is taken to be 64 bits wide.  A run-time panic is `none` (or one of the
outcomes `outOfRange`, `assertFailed` of a walk).
-/

namespace message

/-- A Go byte slice. -/
abbrev Bytes := List UInt8

/-- Go conversion `uint8(x)` of an `int`. -/
def uint8 (x : Int) : Nat := (x % 256).toNat

/-- Go conversion `uint16(x)` of a non-negative integer. -/
def uint16 (x : Nat) : Nat := x % 65536

/-- Go conversion `uint64(x)` of a non-negative integer. -/
def uint64 (x : Nat) : Nat := x % 2 ^ 64

/-- Go conversion `int(x)` of a `uint64` (two's complement, 64-bit `int`). -/
def intOfUint64 (x : Nat) : Int :=
  if x % 2 ^ 64 < 2 ^ 63 then ((x % 2 ^ 64 : Nat) : Int) else ((x % 2 ^ 64 : Nat) : Int) - 2 ^ 64

/-- Little-endian bytes of one `uint16` vector element. -/
def putUint16 (v : Nat) : Bytes := [UInt8.ofNat (v % 256), UInt8.ofNat (v / 256 % 256)]

/-- Little-endian value of a two byte element. -/
def getUint16 (b0 b1 : UInt8) : Nat := b0.toNat + 256 * b1.toNat

/-- Sum of the lengths of a collection of items. -/
def sumLen (items : List Bytes) : Nat := (items.map List.length).sum

/-- Go slice expression `s[lo:hi]` on a slice whose capacity ends with its
length; `none` stands for the cases that panic or that read bytes lying
outside the slice (`lo > hi` or `hi > len(s)`).  A `nil` slice has length 0. -/
def slice (s : Option Bytes) (lo hi : Nat) : Option Bytes :=
  let buf := s.getD []
  if lo ≤ hi ∧ hi ≤ buf.length then some ((buf.drop lo).take (hi - lo)) else none

/-! ## The flatbuffer table `serial.ProllyTreeNode` -/

/-- Modelled from the spec: the generated flatbuffer table `serial.ProllyTreeNode`
(package `gen/fb/serial`, not among the sources), "a tagged, versioned binary
structure containing ... a key-item byte region, a key-offset vector, a
value/address byte region, a value-offset vector or subtree-count array ..., a
tree-level byte, and a total tree-count integer".  A finished `Message` is
represented by the contents of its root table: every vector slot is present
(`some`) or absent (`none`, read back as `nil` / length 0), scalar slots hold
their value (an unset scalar reads as 0).  The vtable slots are, in schema
order, 4 `key_items`, 6 `key_offsets`, 8 `key_type`, 10 `value_items`,
12 `value_offsets`, 14 `value_type`, 16 `value_address_offsets`,
18 `address_array`, 20 `subtree_counts`, 22 `tree_count`, 24 `tree_level`.
The file identifier lies outside the table and is read by no accessor. -/
structure ProllyTreeNode where
  keyItems : Option Bytes
  keyOffsets : Option (List Nat)
  keyType : Nat
  valueItems : Option Bytes
  valueOffsets : Option (List Nat)
  valueType : Nat
  valueAddressOffsets : Option (List Nat)
  addressArray : Option Bytes
  subtreeCounts : Option Bytes
  treeCount : Nat
  treeLevel : Nat
deriving DecidableEq, Repr

/-- A serialized node: `type Message []byte`, seen through its root table. -/
abbrev Message := ProllyTreeNode

/-- Root table accessor `serial.GetRootAsProllyTreeNode(msg, 0)`. -/
def GetRootAsProllyTreeNode (msg : Message) : ProllyTreeNode := msg

/-- Builder call `serial.ProllyTreeNodeStart(b)`: a table with no slot set. -/
def ProllyTreeNodeStart : ProllyTreeNode :=
  { keyItems := none, keyOffsets := none, keyType := 0, valueItems := none,
    valueOffsets := none, valueType := 0, valueAddressOffsets := none,
    addressArray := none, subtreeCounts := none, treeCount := 0, treeLevel := 0 }

/-- Enum value `serial.ItemTypeTupleFormatAlpha`. -/
def ItemTypeTupleFormatAlpha : Nat := 1

/-- Slot setter for a vector handle: a zero `UOffsetT` (`none`) leaves the slot unset. -/
def ProllyTreeNodeAddKeyItems (b : ProllyTreeNode) (v : Option Bytes) : ProllyTreeNode :=
  match v with
  | none => b
  | some x => { b with keyItems := some x }

/-- Slot setter for `key_offsets`. -/
def ProllyTreeNodeAddKeyOffsets (b : ProllyTreeNode) (v : Option (List Nat)) : ProllyTreeNode :=
  match v with
  | none => b
  | some x => { b with keyOffsets := some x }

/-- Slot setter for `value_items`. -/
def ProllyTreeNodeAddValueItems (b : ProllyTreeNode) (v : Option Bytes) : ProllyTreeNode :=
  match v with
  | none => b
  | some x => { b with valueItems := some x }

/-- Slot setter for `value_offsets`. -/
def ProllyTreeNodeAddValueOffsets (b : ProllyTreeNode) (v : Option (List Nat)) : ProllyTreeNode :=
  match v with
  | none => b
  | some x => { b with valueOffsets := some x }

/-- Slot setter for `address_array`. -/
def ProllyTreeNodeAddAddressArray (b : ProllyTreeNode) (v : Option Bytes) : ProllyTreeNode :=
  match v with
  | none => b
  | some x => { b with addressArray := some x }

/-- Slot setter for `subtree_counts`. -/
def ProllyTreeNodeAddSubtreeCounts (b : ProllyTreeNode) (v : Option Bytes) : ProllyTreeNode :=
  match v with
  | none => b
  | some x => { b with subtreeCounts := some x }

/-- Slot setter for the `uint64` scalar `tree_count`. -/
def ProllyTreeNodeAddTreeCount (b : ProllyTreeNode) (v : Nat) : ProllyTreeNode :=
  { b with treeCount := v }

/-- Slot setter for `key_type`. -/
def ProllyTreeNodeAddKeyType (b : ProllyTreeNode) (v : Nat) : ProllyTreeNode :=
  { b with keyType := v }

/-- Slot setter for `value_type`. -/
def ProllyTreeNodeAddValueType (b : ProllyTreeNode) (v : Nat) : ProllyTreeNode :=
  { b with valueType := v }

/-- Slot setter for the `uint8` scalar `tree_level`. -/
def ProllyTreeNodeAddTreeLevel (b : ProllyTreeNode) (v : Nat) : ProllyTreeNode :=
  { b with treeLevel := v }

/-- Accessor `KeyItemsBytes()`: the stored vector, `nil` when the slot is unset. -/
def ProllyTreeNode.KeyItemsBytes (pm : ProllyTreeNode) : Option Bytes := pm.keyItems

/-- Accessor `KeyItemsLength()`. -/
def ProllyTreeNode.KeyItemsLength (pm : ProllyTreeNode) : Nat := (pm.keyItems.getD []).length

/-- Accessor `KeyOffsetsLength()`. -/
def ProllyTreeNode.KeyOffsetsLength (pm : ProllyTreeNode) : Nat := (pm.keyOffsets.getD []).length

/-- Accessor `ValueItemsBytes()`. -/
def ProllyTreeNode.ValueItemsBytes (pm : ProllyTreeNode) : Option Bytes := pm.valueItems

/-- Accessor `ValueOffsetsLength()`. -/
def ProllyTreeNode.ValueOffsetsLength (pm : ProllyTreeNode) : Nat :=
  (pm.valueOffsets.getD []).length

/-- Accessor `ValueAddressOffsetsLength()`. -/
def ProllyTreeNode.ValueAddressOffsetsLength (pm : ProllyTreeNode) : Nat :=
  (pm.valueAddressOffsets.getD []).length

/-- Accessor `ValueAddressOffsets(j)`: element `j` of the vector, 0 when the
slot is unset; an index past the stored vector reads outside it (`none`). -/
def ProllyTreeNode.ValueAddressOffsets (pm : ProllyTreeNode) (j : Nat) : Option Nat :=
  match pm.valueAddressOffsets with
  | none => some 0
  | some v => v[j]?

/-- Accessor `AddressArrayBytes()`. -/
def ProllyTreeNode.AddressArrayBytes (pm : ProllyTreeNode) : Option Bytes := pm.addressArray

/-- Accessor `SubtreeCountsBytes()`. -/
def ProllyTreeNode.SubtreeCountsBytes (pm : ProllyTreeNode) : Option Bytes := pm.subtreeCounts

/-- Accessor `TreeCount()`. -/
def ProllyTreeNode.TreeCount (pm : ProllyTreeNode) : Nat := pm.treeCount

/-- Accessor `TreeLevel()`. -/
def ProllyTreeNode.TreeLevel (pm : ProllyTreeNode) : Nat := pm.treeLevel

/-! ## Helpers of package `message` that are not among the sources -/

/-- Modelled from the spec: `estimateBufferSize` (not among the sources),
"compute total byte size needed for key-item bytes + key-offset vector, and for
the value/address region + metadata, using a pure size-estimation pass over item
lengths".  Returns the key-item size, the value-item size and the buffer size
handed to the pooled builder, a capacity that has no bearing on what is
written. -/
def estimateBufferSize (keys values : List Bytes) (subtrees : List Nat) : Nat × Nat × Nat :=
  let keySz := sumLen keys
  let valSz := sumLen values
  (keySz, valSz, keySz + 2 * keys.length + valSz + 2 * values.length + 8 * subtrees.length + 11)

/-- Modelled from the spec: `writeItemBytes` (not among the sources), "write key
item bytes back-to-back", "the concatenated item bytes"; `sumSz` is the size the
estimation pass computed for them.  The result stands for the handle of the
byte vector written. -/
def writeItemBytes (items : List Bytes) (_sumSz : Nat) : Bytes := items.flatten

/-- Start offsets of the items following an item that ends at `off`. -/
def itemOffsetsFrom (off : Nat) : List Bytes → List Nat
  | [] => []
  | item :: rest => uint16 off :: itemOffsetsFrom (off + item.length) rest

/-- Modelled from the spec: `writeItemOffsets` (not among the sources), "the
offset vector (cumulative byte lengths, first entry omitted, each stored as a
fixed 2-byte unsigned integer)", one offset per item but the first
(`len(offsets) == itemCount - 1`); "overflow is a caller/builder contract
violation, not handled defensively", so an offset is cut to 16 bits. -/
def writeItemOffsets (items : List Bytes) (_sumSz : Nat) : List Nat :=
  match items with
  | [] => []
  | first :: rest => itemOffsetsFrom first.length rest

/-- Little-endian bytes of one `uint64`, least significant byte first. -/
def putUint64 (v : Nat) : Bytes :=
  (List.range 8).map (fun k => UInt8.ofNat (v / 256 ^ k % 256))

/-- Little-endian value of a run of bytes. -/
def getUintLE : Bytes → Nat
  | [] => 0
  | b :: rest => b.toNat + 256 * getUintLE rest

/-- Modelled from the spec: `writeCountArray` (not among the sources), "the
subtree-count array (each count stored as a fixed-width integer)"; a `uint64`
count takes 8 bytes. -/
def writeCountArray (counts : List Nat) : Bytes := counts.flatMap putUint64

/-- Modelled from the spec: `readSubtreeCounts` (not among the sources), "reads
the fixed-width subtree-count array; length equals `itemCount`": the first `n`
counts of the array, `none` when the array is too short for them. -/
def readSubtreeCounts : Nat → Bytes → Option (List Nat)
  | 0, _ => some []
  | n + 1, buf =>
    if 8 ≤ buf.length then
      (readSubtreeCounts n (buf.drop 8)).map (fun cs => getUintLE (buf.take 8) :: cs)
    else none

/-- Modelled from the spec: the package constant `addrSz` (not among the
sources), the "fixed byte length" of an address, which is `hash.ByteLen`; the
length itself is a parameter of the development. -/
def addrSz (ByteLen : Nat) : Nat := ByteLen

/-- A content address `hash.Hash`, an array of `hash.ByteLen` bytes. -/
abbrev Hash := Bytes

/-- Modelled from the spec: `hash.New` (package `store/hash`, not among the
sources), which makes the "fixed-length content hash" out of a slice of exactly
that length and panics on any other length. -/
def hash.New (ByteLen : Nat) (data : Bytes) : Option Hash :=
  if data.length = ByteLen then some data else none

/-- Modelled from the spec: `offsetsForAddressArray` (not among the sources),
which "treats the address-array region as a fixed-stride SlicedBuffer for
internal nodes (each item is one fixed-width address)": the 2-byte offsets of
the addresses after the first. -/
def offsetsForAddressArray (ByteLen : Nat) (arr : Bytes) : Bytes :=
  ((List.range (arr.length / addrSz ByteLen - 1)).map
    (fun i => uint16 ((i + 1) * addrSz ByteLen))).flatMap putUint16

/-- Modelled from the spec: `assertFalse` (not among the sources), "this
exclusivity is asserted as an internal invariant": `none` is the panic. -/
def assertFalse (b : Bool) : Option Unit := if b then none else some ()

/-! ## `val.SlicedBuffer` -/

/-- Modelled from the spec: `val.SlicedBuffer` (package `store/val`, not among
the sources), "`{ buffer: bytes, offsets: ordered sequence of byte-offsets }`",
the offsets being kept as 2-byte elements. -/
structure SlicedBuffer where
  Buf : Bytes
  Offs : Bytes
deriving DecidableEq, Repr

/-- The 2-byte elements of an offset vector. -/
def readOffsets : Bytes → List Nat
  | b0 :: b1 :: rest => getUint16 b0 b1 :: readOffsets rest
  | _ => []

/-- Stored offsets of a sliced buffer. -/
def SlicedBuffer.offsets (sb : SlicedBuffer) : List Nat := readOffsets sb.Offs

/-- Item boundaries: "offset 0 implicit (not stored) and the final boundary
implicit as `len(buffer)`". -/
def SlicedBuffer.bounds (sb : SlicedBuffer) : List Nat :=
  0 :: (sb.offsets ++ [sb.Buf.length])

/-- Modelled from the spec: `SlicedBuffer.GetSlice`, "Item *i* occupies
`buffer[offsets[i]:offsets[i+1]]`"; `none` when there is no such item or its
boundaries do not lie in the buffer. -/
def SlicedBuffer.GetSlice (sb : SlicedBuffer) (i : Nat) : Option Bytes :=
  match sb.bounds[i]?, sb.bounds[i + 1]? with
  | some start, some stop => slice (some sb.Buf) start stop
  | _, _ => none

/-! ## `prolly_map.go` -/

/-- Source `sumSubtrees`: the `uint64` sum of the counts. -/
def sumSubtrees (subtrees : List Nat) : Nat :=
  subtrees.foldl (fun sum s => uint64 (sum + s)) 0

/-- Source `SerializeProllyMap`.  The buffer pool only supplies the memory the
builder writes into and is left out; the handles `keyTups`, `keyOffs`, ... are
the vectors written, a zero handle being `none`. -/
def SerializeProllyMap (keys values : List Bytes) (level : Int) (subtrees : List Nat) : Message :=
  let (keySz, valSz, _bufSz) := estimateBufferSize keys values subtrees
  -- serialize keys and offsets
  let keyTups : Option Bytes := some (writeItemBytes keys keySz)
  let keyOffs : Option (List Nat) := some (writeItemOffsets keys keySz)
  -- value tuples for leaf nodes, child refs and subtree counts for internal nodes
  let valTups : Option Bytes := if level = 0 then some (writeItemBytes values valSz) else none
  let valOffs : Option (List Nat) := if level = 0 then some (writeItemOffsets values valSz) else none
  let refArr : Option Bytes := if level = 0 then none else some (writeItemBytes values valSz)
  let cardArr : Option Bytes := if level = 0 then none else some (writeCountArray subtrees)
  -- populate the node's vtable
  let b := ProllyTreeNodeStart
  let b := ProllyTreeNodeAddKeyItems b keyTups
  let b := ProllyTreeNodeAddKeyOffsets b keyOffs
  let b :=
    if level = 0 then
      let b := ProllyTreeNodeAddValueItems b valTups
      let b := ProllyTreeNodeAddValueOffsets b valOffs
      ProllyTreeNodeAddTreeCount b (uint64 keys.length)
    else
      let b := ProllyTreeNodeAddAddressArray b refArr
      let b := ProllyTreeNodeAddSubtreeCounts b cardArr
      ProllyTreeNodeAddTreeCount b (sumSubtrees subtrees)
  let b := ProllyTreeNodeAddKeyType b ItemTypeTupleFormatAlpha
  let b := ProllyTreeNodeAddValueType b ItemTypeTupleFormatAlpha
  let b := ProllyTreeNodeAddTreeLevel b (uint8 level)
  b

/-- Source `getKeyOffsetsVector`: the `KeyOffsetsLength() * 2` bytes of the
`key_offsets` vector.  With the slot unset the start position is read from
outside any vector, which the table contents do not determine: `none`. -/
def getKeyOffsetsVector (pm : ProllyTreeNode) : Option Bytes :=
  match pm.keyOffsets with
  | none => none
  | some v => some ((v.flatMap putUint16).take (pm.KeyOffsetsLength * 2))

/-- Source `getValueOffsetsVector`: the bytes of the `value_offsets` vector. -/
def getValueOffsetsVector (pm : ProllyTreeNode) : Option Bytes :=
  match pm.valueOffsets with
  | none => none
  | some v => some ((v.flatMap putUint16).take (pm.ValueOffsetsLength * 2))

/-- Source `getProllyMapKeys`. -/
def getProllyMapKeys (msg : Message) : Option SlicedBuffer :=
  let pm := GetRootAsProllyTreeNode msg
  (getKeyOffsetsVector pm).map (fun offs => { Buf := pm.KeyItemsBytes.getD [], Offs := offs })

/-- Source `getProllyMapValues`. -/
def getProllyMapValues (ByteLen : Nat) (msg : Message) : Option SlicedBuffer :=
  let pm := GetRootAsProllyTreeNode msg
  match pm.ValueItemsBytes with
  | some items =>
    (getValueOffsetsVector pm).map (fun offs => { Buf := items, Offs := offs })
  | none =>
    let buf := pm.AddressArrayBytes.getD []
    some { Buf := buf, Offs := offsetsForAddressArray ByteLen buf }

/-- Source `getProllyMapCount`, a `uint16`. -/
def getProllyMapCount (msg : Message) : Nat :=
  let pm := GetRootAsProllyTreeNode msg
  if pm.KeyItemsLength = 0 then 0
  else uint16 (pm.KeyOffsetsLength + 1)

/-- Source `getProllyMapTreeLevel`. -/
def getProllyMapTreeLevel (msg : Message) : Int :=
  let pm := GetRootAsProllyTreeNode msg
  (pm.TreeLevel : Int)

/-- Source `getProllyMapTreeCount`. -/
def getProllyMapTreeCount (msg : Message) : Int :=
  let pm := GetRootAsProllyTreeNode msg
  intOfUint64 pm.TreeCount

/-- Source `getProllyMapSubtrees`; `none` when the count array is too short. -/
def getProllyMapSubtrees (msg : Message) : Option (List Nat) :=
  let cnt := getProllyMapCount msg
  let pm := GetRootAsProllyTreeNode msg
  readSubtreeCounts cnt (pm.SubtreeCountsBytes.getD [])

/-- How a call of `walkProllyMapAddresses` ends: it returns `nil`, it returns
the error of the callback, a slice expression or `hash.New` panics (or reads
outside the region it slices), or the closing assertion panics. -/
inductive WalkResult (ε : Type) where
  | nil : WalkResult ε
  | err (e : ε) : WalkResult ε
  | outOfRange : WalkResult ε
  | assertFailed : WalkResult ε
deriving DecidableEq, Repr

/-- The observable run of a walk: the state of the callback afterwards, the
callback invocations in order (address passed, error returned), and the way the
walk ends. -/
structure WalkRun (σ ε : Type) where
  state : σ
  calls : List (Hash × Option ε)
  result : WalkResult ε

/-- One `for i := 0; i < n; i++` loop of the walk over the indices still to
do: the address of index `i` is computed (`none`: panic), the callback is
called on it, and a non-nil error returns at once.  The result `nil` means the
loop ran to its end. -/
def walkLoop {σ ε : Type} (cb : σ → Hash → σ × Option ε) (addrAt : Nat → Option Hash) :
    List Nat → σ → WalkRun σ ε
  | [], s => { state := s, calls := [], result := WalkResult.nil }
  | i :: rest, s =>
    match addrAt i with
    | none => { state := s, calls := [], result := WalkResult.outOfRange }
    | some addr =>
      match cb s addr with
      | (s1, some e) => { state := s1, calls := [(addr, some e)], result := WalkResult.err e }
      | (s1, none) =>
        let r := walkLoop cb addrAt rest s1
        { state := r.state, calls := (addr, none) :: r.calls, result := r.result }

/-- Source `walkProllyMapAddresses`; the callback `cb` carries its own state
`σ` and returns `none` for a nil error.  Note that the second loop slices
`arr`, the address array, as the source does. -/
def walkProllyMapAddresses {σ ε : Type} (ByteLen : Nat) (msg : Message)
    (cb : σ → Hash → σ × Option ε) (s : σ) : WalkRun σ ε :=
  let pm := GetRootAsProllyTreeNode msg
  let arr := pm.AddressArrayBytes
  let r1 := walkLoop cb
    (fun i => (slice arr (i * addrSz ByteLen) ((i + 1) * addrSz ByteLen)).bind (hash.New ByteLen))
    (List.range ((arr.getD []).length / ByteLen)) s
  match r1.result with
  | WalkResult.nil =>
    let cnt := pm.ValueAddressOffsetsLength
    let arr2 := pm.ValueItemsBytes
    let r2 := walkLoop cb
      (fun i => (pm.ValueAddressOffsets i).bind
        (fun o => (slice arr o (o + addrSz ByteLen)).bind (hash.New ByteLen)))
      (List.range cnt) r1.state
    match r2.result with
    | WalkResult.nil =>
      match assertFalse (arr.isSome && arr2.isSome) with
      | none =>
        { state := r2.state, calls := r1.calls ++ r2.calls, result := WalkResult.assertFailed }
      | some _ => { state := r2.state, calls := r1.calls ++ r2.calls, result := WalkResult.nil }
    | res => { state := r2.state, calls := r1.calls ++ r2.calls, result := res }
  | res => { state := r1.state, calls := r1.calls, result := res }

/-! ## Inputs used in the examples below -/

/-- An item of 65536 bytes. -/
def bigItem : Bytes := List.replicate 65536 0

/-- A pair of items whose first item does not fit a 2-byte offset. -/
def oversizeKeys : List Bytes := [bigItem, [1]]

/-- Keys with a non-empty key region and 65536 items. -/
def manyKeys : List Bytes := [7] :: List.replicate 65535 []

/-- One value of a single byte for each of `manyKeys`. -/
def manyValues : List Bytes := List.replicate 65536 [0]

/-- A 20-byte address. -/
def addrA : Hash := List.replicate 20 170

/-- Another 20-byte address. -/
def addrB : Hash := List.replicate 20 187

/-- A leaf node with one key and one value that is an out-of-line address, as
the schema lays it out: `value_address_offsets` points at offset 0 of
`value_items`, and there is no `address_array`. -/
def leafWithAddress : Message :=
  { keyItems := some [107], keyOffsets := some [], keyType := ItemTypeTupleFormatAlpha,
    valueItems := some addrA, valueOffsets := some [], valueType := ItemTypeTupleFormatAlpha,
    valueAddressOffsets := some [0], addressArray := none, subtreeCounts := none,
    treeCount := 1, treeLevel := 0 }

/-- A third 20-byte address. -/
def addrC : Hash := List.replicate 20 204

/-- A callback that accepts every address and counts its invocations. -/
def countingCallback (s : Nat) (_addr : Hash) : Nat × Option String := (s + 1, none)

/-- A callback that fails on its second invocation. -/
def failSecond (s : Nat) (_addr : Hash) : Nat × Option String :=
  (s + 1, if s = 1 then some "stop" else none)

/-- State of a callback that started in state `s` and was then invoked on the
addresses `addrs`, one after the other. -/
def stateAfter {σ ε : Type} (cb : σ → Hash → σ × Option ε) (s : σ) (addrs : List Hash) : σ :=
  addrs.foldl (fun t a => (cb t a).1) s

end message

/-! ## `revert.go` -/

namespace merge

/-- A Go `error` value. -/
abbrev Error := String

/-- The error `doltdb.ErrGhostCommitEncountered`. -/
def ErrGhostCommitEncountered : Error := "ghost commit encountered"

/-- Result of `MergeRoots`, of which `Revert` reads the field `Root`. -/
structure Result (Root : Type) where
  Root : Root

/-- The operations of `doltdb` and `MergeRoots` that `Revert` calls, over
abstract commits, root values and editor options.  `ResolveParent` yields
`none` for a ghost commit (`ToCommit` not ok). -/
structure Collaborators (Commit Root Opts : Type) where
  DatasParents : Commit → List String
  HashOf : Commit → Except Error String
  GetRootValue : Commit → Except Error Root
  GetCommitMeta : Commit → Except Error String
  ResolveParent : Commit → Nat → Except Error (Option Commit)
  MergeRoots : Root → Root → Root → Commit → Commit → Opts → Bool → Except Error (Result Root)
  HasConflicts : Root → Except Error Bool
  HasConstraintViolations : Root → Except Error Bool

/-- One call of `MergeRoots` made by `Revert`, with what it returned. -/
structure MergeCall (Commit Root : Type) where
  ours : Root
  theirs : Root
  base : Root
  parentCM : Commit
  baseCommit : Commit
  result : Except Error (Result Root)

/-- The three values `Revert` returns. -/
structure RevertReturn (Root : Type) where
  root : Option Root
  message : String
  err : Option Error

/-- A run of `Revert`: what it returns and the `MergeRoots` calls it made. -/
structure RevertRun (Commit Root : Type) where
  ret : RevertReturn Root
  merges : List (MergeCall Commit Root)

/-- The statement `return nil, "", err`. -/
def failWith {Root : Type} (e : Error) : RevertReturn Root :=
  { root := none, message := "", err := some e }

/-- First loop of `Revert`: the first commit with no parents makes it fail. -/
def checkParents {Commit Root Opts : Type} (c : Collaborators Commit Root Opts) :
    List Commit → Option Error
  | [] => none
  | cm :: rest =>
    if (c.DatasParents cm).length = 0 then
      match c.HashOf cm with
      | Except.error err => some err
      | Except.ok h => some ("cannot revert commit with no parents (" ++ h ++ ")")
    else checkParents c rest

/-- Second loop of `Revert` from index `i` on, with the current `root` and
`revertMessage`. -/
def revertLoop {Commit Root Opts : Type} (c : Collaborators Commit Root Opts) (opts : Opts) :
    Nat → List Commit → Root → String → RevertRun Commit Root
  | _, [], root, revertMessage =>
    { ret := { root := some root, message := revertMessage, err := none }, merges := [] }
  | i, baseCommit :: rest, root, revertMessage =>
    let revertMessage := if i > 0 then revertMessage ++ " and" else revertMessage
    match c.GetRootValue baseCommit with
    | Except.error err => { ret := failWith err, merges := [] }
    | Except.ok baseRoot =>
    match c.GetCommitMeta baseCommit with
    | Except.error err => { ret := failWith err, merges := [] }
    | Except.ok description =>
    let revertMessage := revertMessage ++ " \"" ++ description ++ "\""
    match c.ResolveParent baseCommit 0 with
    | Except.error err => { ret := failWith err, merges := [] }
    | Except.ok none => { ret := failWith ErrGhostCommitEncountered, merges := [] }
    | Except.ok (some parentCM) =>
    match c.GetRootValue parentCM with
    | Except.error err => { ret := failWith err, merges := [] }
    | Except.ok theirRoot =>
    let call : MergeCall Commit Root :=
      { ours := root, theirs := theirRoot, base := baseRoot, parentCM := parentCM,
        baseCommit := baseCommit,
        result := c.MergeRoots root theirRoot baseRoot parentCM baseCommit opts false }
    match call.result with
    | Except.error err => { ret := failWith err, merges := [call] }
    | Except.ok result =>
    let root := result.Root
    match c.HasConflicts result.Root with
    | Except.error err => { ret := failWith err, merges := [call] }
    | Except.ok true =>
      { ret := failWith "revert currently does not handle conflicts", merges := [call] }
    | Except.ok false =>
    match c.HasConstraintViolations result.Root with
    | Except.error err => { ret := failWith err, merges := [call] }
    | Except.ok true =>
      { ret := failWith "revert currently does not handle constraint violations",
        merges := [call] }
    | Except.ok false =>
    let r := revertLoop c opts (i + 1) rest root revertMessage
    { ret := r.ret, merges := call :: r.merges }

/-- The merged root carries conflicts or constraint violations: the call
returned a root on which `HasConflicts` or `HasConstraintViolations` answers
true. -/
def MergeCall.flagged {Commit Root Opts : Type} (c : Collaborators Commit Root Opts)
    (call : MergeCall Commit Root) : Bool :=
  match call.result with
  | Except.error _ => false
  | Except.ok result =>
    (match c.HasConflicts result.Root with
      | Except.ok true => true
      | _ => false) ||
    (match c.HasConstraintViolations result.Root with
      | Except.ok true => true
      | _ => false)

/-- Source `Revert`. -/
def Revert {Commit Root Opts : Type} (c : Collaborators Commit Root Opts) (root : Root)
    (commits : List Commit) (opts : Opts) : RevertRun Commit Root :=
  match checkParents c commits with
  | some err => { ret := failWith err, merges := [] }
  | none => revertLoop c opts 0 commits root "Revert"

/-! ### A small history used in the examples below

Commits are numbers, the parent of commit `n + 1` is commit `n`, commit 0 has
no parent; a root value is the list of the commits merged into it, and a root
holding commit 7 has conflicts. -/

/-- Collaborators of the example history. -/
def exampleHistory : Collaborators Nat (List Nat) Unit :=
  { DatasParents := fun cm => if cm = 0 then [] else ["parent"],
    HashOf := fun cm => Except.ok (toString cm),
    GetRootValue := fun cm => Except.ok [cm],
    GetCommitMeta := fun cm => Except.ok ("commit " ++ toString cm),
    ResolveParent := fun cm _ => Except.ok (if cm = 0 then none else some (cm - 1)),
    MergeRoots := fun ours _theirs base _ _ _ _ => Except.ok { Root := ours ++ base },
    HasConflicts := fun root => Except.ok (decide (7 ∈ root)),
    HasConstraintViolations := fun _ => Except.ok false }

end merge

/-! ## `memory.go` -/

namespace env

/-- A Go `error` value. -/
abbrev Error := String

/-- Source `MemoryRepoState`, over abstract database handles and refs. -/
structure MemoryRepoState (DB Ref : Type) where
  DoltDB : DB
  Head : Ref

/-- The type `ref.MarshalableRef`, a struct wrapping a `ref.DoltRef`. -/
structure MarshalableRef (Ref : Type) where
  Ref : Ref

/-- Source `MemoryRepoState.CWBHeadRef`. -/
def MemoryRepoState.CWBHeadRef {DB Ref : Type} (m : MemoryRepoState DB Ref) : Ref := m.Head

/-- Body of the method `SetCWBHeadRef` run on its receiver variable `m`: the
receiver variable after the assignment and the named result `err`, never set. -/
def SetCWBHeadRefBody {DB Ref : Type} (m : MemoryRepoState DB Ref) (r : MarshalableRef Ref) :
    MemoryRepoState DB Ref × Option Error :=
  let m := { m with Head := r.Ref }
  (m, none)

/-- A Go call `x.f(a)` of a method declared on a value receiver `(m T)`: the
body runs on a copy of `x`, so the caller keeps `x` as it was and gets only the
results of the body. -/
def callOnValueReceiver {T A R : Type} (body : T → A → T × R) (x : T) (a : A) : T × R :=
  (x, (body x a).2)

/-- Source `MemoryRepoState.SetCWBHeadRef`, as seen by the caller: the caller's
`m` after the call and the error returned. -/
def MemoryRepoState.SetCWBHeadRef {DB Ref : Type} (m : MemoryRepoState DB Ref)
    (r : MarshalableRef Ref) : MemoryRepoState DB Ref × Option Error :=
  callOnValueReceiver SetCWBHeadRefBody m r

end env

/-! ## Lemmas on the offset-vector codec -/

namespace message

theorem toNat_ofNat_of_lt (n : Nat) (h : n < 256) : (UInt8.ofNat n).toNat = n := by
  have := UInt8.toNat_ofNat n
  simp only [UInt8.size] at this
  show (OfNat.ofNat n : UInt8).toNat = n
  rw [this]; exact Nat.mod_eq_of_lt h

theorem getUint16_putUint16 (v : Nat) (h : v < 65536) (rest : Bytes) :
    readOffsets (putUint16 v ++ rest) = v :: readOffsets rest := by
  simp only [putUint16, List.cons_append, List.nil_append, readOffsets, getUint16]
  rw [toNat_ofNat_of_lt _ (Nat.mod_lt _ (by norm_num)),
    toNat_ofNat_of_lt _ (Nat.mod_lt _ (by norm_num))]
  congr 1
  omega

theorem readOffsets_flatMap (vs : List Nat) (h : ∀ v ∈ vs, v < 65536) :
    readOffsets (vs.flatMap putUint16) = vs := by
  induction vs with
  | nil => simp [readOffsets]
  | cons v vs ih =>
    rw [List.flatMap_cons, getUint16_putUint16 v (h v (by simp)), ih]
    intro w hw
    exact h w (by simp [hw])

theorem length_flatMap_putUint16 (vs : List Nat) :
    (vs.flatMap putUint16).length = 2 * vs.length := by
  induction vs with
  | nil => simp
  | cons v vs ih => rw [List.flatMap_cons, List.length_append, ih]; simp [putUint16]; omega

theorem sumLen_nil : sumLen [] = 0 := rfl

theorem sumLen_cons (a : Bytes) (l : List Bytes) : sumLen (a :: l) = a.length + sumLen l := by
  simp [sumLen]

theorem length_flatten_eq (items : List Bytes) : items.flatten.length = sumLen items := by
  induction items with
  | nil => rfl
  | cons a l ih => simp [sumLen_cons, ih]

theorem sumLen_take_le (items : List Bytes) (i : Nat) : sumLen (items.take i) ≤ sumLen items := by
  induction items generalizing i with
  | nil => simp
  | cons a l ih =>
    cases i with
    | zero => simp [sumLen_nil]
    | succ k => simp only [List.take_succ_cons, sumLen_cons]; have := ih k; omega

theorem itemOffsetsFrom_length (off : Nat) (rest : List Bytes) :
    (itemOffsetsFrom off rest).length = rest.length := by
  induction rest generalizing off with
  | nil => rfl
  | cons a l ih => simp [itemOffsetsFrom, ih]

theorem itemOffsetsFrom_lt (off : Nat) (rest : List Bytes) :
    ∀ v ∈ itemOffsetsFrom off rest, v < 65536 := by
  induction rest generalizing off with
  | nil => simp [itemOffsetsFrom]
  | cons a l ih =>
    intro v hv
    simp only [itemOffsetsFrom, List.mem_cons] at hv
    rcases hv with h | h
    · rw [h]; exact Nat.mod_lt _ (by norm_num)
    · exact ih _ v h

theorem itemOffsetsFrom_getElem? (off : Nat) (rest : List Bytes) (h : off + sumLen rest < 65536)
    (j : Nat) (hj : j < rest.length) :
    (itemOffsetsFrom off rest)[j]? = some (off + sumLen (rest.take j)) := by
  induction rest generalizing off j with
  | nil => simp at hj
  | cons a l ih =>
    rw [sumLen_cons] at h
    cases j with
    | zero =>
      simp only [itemOffsetsFrom, List.getElem?_cons_zero, List.take_zero, sumLen_nil, uint16]
      rw [Nat.mod_eq_of_lt (by omega)]; rfl
    | succ k =>
      simp only [itemOffsetsFrom, List.getElem?_cons_succ, List.take_succ_cons, sumLen_cons]
      rw [ih (off + a.length) (by omega) k (by simpa using hj)]
      congr 1; omega

theorem writeItemOffsets_length (items : List Bytes) (sz : Nat) :
    (writeItemOffsets items sz).length = items.length - 1 := by
  cases items with
  | nil => rfl
  | cons a l => simp [writeItemOffsets, itemOffsetsFrom_length]

theorem writeItemOffsets_lt (items : List Bytes) (sz : Nat) :
    ∀ v ∈ writeItemOffsets items sz, v < 65536 := by
  cases items with
  | nil => simp [writeItemOffsets]
  | cons a l => exact itemOffsetsFrom_lt _ _

/-- The boundaries of the sliced buffer written for `items` are the running
sums of the item lengths. -/
theorem bounds_getElem? (items : List Bytes) (sz : Nat) (hne : items ≠ [])
    (h : sumLen items < 65536) (i : Nat) (hi : i ≤ items.length) :
    (SlicedBuffer.bounds
      { Buf := items.flatten, Offs := (writeItemOffsets items sz).flatMap putUint16 })[i]?
      = some (sumLen (items.take i)) := by
  cases items with
  | nil => exact absurd rfl hne
  | cons a l =>
    simp only [SlicedBuffer.bounds, SlicedBuffer.offsets, writeItemOffsets]
    rw [readOffsets_flatMap _ (itemOffsetsFrom_lt _ _)]
    rw [sumLen_cons] at h
    cases i with
    | zero => simp [sumLen_nil]
    | succ k =>
      simp only [List.getElem?_cons_succ, List.take_succ_cons, sumLen_cons]
      simp only [List.length_cons] at hi
      by_cases hk : k < l.length
      · rw [List.getElem?_append_left (by rw [itemOffsetsFrom_length]; exact hk)]
        exact itemOffsetsFrom_getElem? _ _ h k hk
      · have hkl : k = l.length := by omega
        subst hkl
        rw [List.getElem?_append_right (by rw [itemOffsetsFrom_length])]
        simp [itemOffsetsFrom_length, sumLen]

theorem slice_append_left (a b : Bytes) (x y : Nat) :
    slice (some (a ++ b)) (a.length + x) (a.length + y) = slice (some b) x y := by
  simp only [slice, Option.getD_some, List.length_append]
  have e : a.length + y - (a.length + x) = y - x := by omega
  by_cases hc : x ≤ y ∧ y ≤ b.length
  · rw [if_pos hc, if_pos (by omega), e, List.drop_append]
  · rw [if_neg hc, if_neg (by omega)]

theorem slice_flatten (items : List Bytes) (i : Nat) (h : i < items.length) :
    slice (some items.flatten) (sumLen (items.take i)) (sumLen (items.take (i + 1)))
      = some items[i] := by
  induction items generalizing i with
  | nil => simp at h
  | cons a l ih =>
    cases i with
    | zero =>
      simp [slice, sumLen_cons, sumLen_nil]
    | succ k =>
      simp only [List.take_succ_cons, sumLen_cons, List.flatten_cons, List.getElem_cons_succ]
      rw [slice_append_left]
      exact ih k (by simpa using h)

/-- Item round trip of the offset-vector codec. -/
theorem getSlice_written (items : List Bytes) (sz : Nat) (h : sumLen items < 65536)
    (i : Nat) (hi : i < items.length) :
    SlicedBuffer.GetSlice
      { Buf := items.flatten, Offs := (writeItemOffsets items sz).flatMap putUint16 } i
      = some items[i] := by
  have hne : items ≠ [] := by intro e; rw [e] at hi; simp at hi
  unfold SlicedBuffer.GetSlice
  rw [bounds_getElem? items sz hne h i (by omega), bounds_getElem? items sz hne h (i + 1) (by omega)]
  exact slice_flatten items i hi

/-! ## What `SerializeProllyMap` writes -/

theorem serialize_leaf (keys values : List Bytes) (subtrees : List Nat) :
    SerializeProllyMap keys values 0 subtrees =
      { keyItems := some keys.flatten,
        keyOffsets := some (writeItemOffsets keys (sumLen keys)),
        keyType := ItemTypeTupleFormatAlpha,
        valueItems := some values.flatten,
        valueOffsets := some (writeItemOffsets values (sumLen values)),
        valueType := ItemTypeTupleFormatAlpha,
        valueAddressOffsets := none,
        addressArray := none,
        subtreeCounts := none,
        treeCount := uint64 keys.length,
        treeLevel := 0 } := by
  simp [SerializeProllyMap, estimateBufferSize, writeItemBytes, ProllyTreeNodeStart,
    ProllyTreeNodeAddKeyItems, ProllyTreeNodeAddKeyOffsets, ProllyTreeNodeAddValueItems,
    ProllyTreeNodeAddValueOffsets, ProllyTreeNodeAddTreeCount, ProllyTreeNodeAddKeyType,
    ProllyTreeNodeAddValueType, ProllyTreeNodeAddTreeLevel, uint8]

theorem serialize_internal (keys values : List Bytes) (level : Int) (subtrees : List Nat)
    (h : level ≠ 0) :
    SerializeProllyMap keys values level subtrees =
      { keyItems := some keys.flatten,
        keyOffsets := some (writeItemOffsets keys (sumLen keys)),
        keyType := ItemTypeTupleFormatAlpha,
        valueItems := none,
        valueOffsets := none,
        valueType := ItemTypeTupleFormatAlpha,
        valueAddressOffsets := none,
        addressArray := some values.flatten,
        subtreeCounts := some (writeCountArray subtrees),
        treeCount := sumSubtrees subtrees,
        treeLevel := uint8 level } := by
  simp [SerializeProllyMap, estimateBufferSize, writeItemBytes, ProllyTreeNodeStart,
    ProllyTreeNodeAddKeyItems, ProllyTreeNodeAddKeyOffsets, ProllyTreeNodeAddAddressArray,
    ProllyTreeNodeAddSubtreeCounts, ProllyTreeNodeAddTreeCount, ProllyTreeNodeAddKeyType,
    ProllyTreeNodeAddValueType, ProllyTreeNodeAddTreeLevel, h]

theorem intOfUint64_uint64 (n : Nat) (h : n < 2 ^ 63) : intOfUint64 (uint64 n) = (n : Int) := by
  have h1 : n % 2 ^ 64 = n := Nat.mod_eq_of_lt (by omega)
  simp only [intOfUint64, uint64, Nat.mod_mod, h1, if_pos h]

/-- The key buffer decoded from a message, whatever its level. -/
theorem getProllyMapKeys_serialize (keys values : List Bytes) (level : Int)
    (subtrees : List Nat) :
    getProllyMapKeys (SerializeProllyMap keys values level subtrees) =
      some { Buf := keys.flatten,
             Offs := (writeItemOffsets keys (sumLen keys)).flatMap putUint16 } := by
  have ht : ∀ vs : List Nat, (vs.flatMap putUint16).take (vs.length * 2)
      = vs.flatMap putUint16 := by
    intro vs
    apply List.take_of_length_le
    rw [length_flatMap_putUint16]; omega
  by_cases h : level = 0
  · subst h
    rw [serialize_leaf]
    simp [getProllyMapKeys, GetRootAsProllyTreeNode, getKeyOffsetsVector,
      ProllyTreeNode.KeyOffsetsLength, ProllyTreeNode.KeyItemsBytes, ht]
  · rw [serialize_internal _ _ _ _ h]
    simp [getProllyMapKeys, GetRootAsProllyTreeNode, getKeyOffsetsVector,
      ProllyTreeNode.KeyOffsetsLength, ProllyTreeNode.KeyItemsBytes, ht]

/-- The value buffer decoded from a leaf message. -/
theorem getProllyMapValues_leaf (ByteLen : Nat) (keys values : List Bytes)
    (subtrees : List Nat) :
    getProllyMapValues ByteLen (SerializeProllyMap keys values 0 subtrees) =
      some { Buf := values.flatten,
             Offs := (writeItemOffsets values (sumLen values)).flatMap putUint16 } := by
  have ht : ∀ vs : List Nat, (vs.flatMap putUint16).take (vs.length * 2)
      = vs.flatMap putUint16 := by
    intro vs
    apply List.take_of_length_le
    rw [length_flatMap_putUint16]; omega
  rw [serialize_leaf]
  simp [getProllyMapValues, GetRootAsProllyTreeNode, getValueOffsetsVector,
    ProllyTreeNode.ValueOffsetsLength, ProllyTreeNode.ValueItemsBytes, ht]

/-! ## Internal nodes: address array and subtree counts -/

theorem sumLen_fixed (ByteLen : Nat) (values : List Bytes)
    (h : ∀ v ∈ values, v.length = ByteLen) : sumLen values = values.length * ByteLen := by
  induction values with
  | nil => simp [sumLen_nil]
  | cons a l ih =>
    rw [sumLen_cons, ih (fun v hv => h v (by simp [hv])), h a (by simp), List.length_cons]
    ring

theorem itemOffsetsFrom_fixed (ByteLen off : Nat) (rest : List Bytes)
    (h : ∀ v ∈ rest, v.length = ByteLen) :
    itemOffsetsFrom off rest = (List.range rest.length).map (fun i => uint16 (off + i * ByteLen)) := by
  induction rest generalizing off with
  | nil => simp [itemOffsetsFrom]
  | cons a l ih =>
    rw [itemOffsetsFrom, ih (off + a.length) (fun v hv => h v (by simp [hv])), h a (by simp),
      List.length_cons, List.range_succ_eq_map]
    simp only [List.map_cons, List.map_map, Nat.zero_mul, Nat.add_zero]
    congr 1
    apply List.map_congr_left
    intro i _
    simp only [Function.comp, Nat.succ_eq_add_one]
    congr 1
    ring

/-- On an array of fixed-width addresses the stride offsets are the offsets the
encoder would have written for the addresses as items. -/
theorem offsetsForAddressArray_flatten (ByteLen : Nat) (hB : 0 < ByteLen) (values : List Bytes)
    (sz : Nat) (h : ∀ v ∈ values, v.length = ByteLen) :
    offsetsForAddressArray ByteLen values.flatten
      = (writeItemOffsets values sz).flatMap putUint16 := by
  unfold offsetsForAddressArray addrSz
  rw [length_flatten_eq, sumLen_fixed ByteLen values h, Nat.mul_div_cancel _ hB]
  congr 1
  cases values with
  | nil => simp [writeItemOffsets]
  | cons a l =>
    rw [writeItemOffsets, itemOffsetsFrom_fixed ByteLen _ l (fun v hv => h v (by simp [hv])),
      h a (by simp)]
    simp only [List.length_cons, Nat.add_sub_cancel]
    apply List.map_congr_left
    intro i _
    congr 1
    ring

/-- The value buffer decoded from an internal-node message. -/
theorem getProllyMapValues_internal (ByteLen : Nat) (keys values : List Bytes) (level : Int)
    (subtrees : List Nat) (hl : level ≠ 0) :
    getProllyMapValues ByteLen (SerializeProllyMap keys values level subtrees) =
      some { Buf := values.flatten, Offs := offsetsForAddressArray ByteLen values.flatten } := by
  rw [serialize_internal _ _ _ _ hl]
  simp [getProllyMapValues, GetRootAsProllyTreeNode, ProllyTreeNode.ValueItemsBytes,
    ProllyTreeNode.AddressArrayBytes]

theorem getUintLE_putUint64 (v : Nat) (h : v < 2 ^ 64) : getUintLE (putUint64 v) = v := by
  have hr : List.range 8 = [0, 1, 2, 3, 4, 5, 6, 7] := by decide
  simp only [putUint64, hr, List.map_cons, List.map_nil, getUintLE]
  repeat rw [toNat_ofNat_of_lt _ (Nat.mod_lt _ (by norm_num))]
  norm_num
  omega

theorem length_putUint64 (v : Nat) : (putUint64 v).length = 8 := by
  simp [putUint64]

theorem readSubtreeCounts_written (counts : List Nat) (h : ∀ c ∈ counts, c < 2 ^ 64) :
    readSubtreeCounts counts.length (writeCountArray counts) = some counts := by
  induction counts with
  | nil => simp [readSubtreeCounts]
  | cons c cs ih =>
    have hlen : 8 ≤ (writeCountArray (c :: cs)).length := by
      simp [writeCountArray, List.flatMap_cons, length_putUint64]
    have htake : (writeCountArray (c :: cs)).take 8 = putUint64 c := by
      simp only [writeCountArray, List.flatMap_cons]
      rw [List.take_append_of_le_length (by rw [length_putUint64])]
      exact List.take_of_length_le (by rw [length_putUint64])
    have hdrop : (writeCountArray (c :: cs)).drop 8 = writeCountArray cs := by
      simp only [writeCountArray, List.flatMap_cons]
      rw [List.drop_append_of_le_length (by rw [length_putUint64])]
      rw [List.drop_of_length_le (by rw [length_putUint64])]
      rfl
    rw [List.length_cons, readSubtreeCounts, if_pos hlen, htake, hdrop,
      ih (fun x hx => h x (by simp [hx])), getUintLE_putUint64 c (h c (by simp))]
    rfl

theorem foldl_uint64_add (l : List Nat) (acc : Nat) :
    l.foldl (fun sum s => uint64 (sum + s)) acc % 2 ^ 64 = (acc + l.sum) % 2 ^ 64 := by
  induction l generalizing acc with
  | nil => simp
  | cons a l ih =>
    rw [List.foldl_cons, ih, List.sum_cons, uint64]
    omega

theorem sumSubtrees_eq (subtrees : List Nat) : sumSubtrees subtrees = subtrees.sum % 2 ^ 64 := by
  have h := foldl_uint64_add subtrees 0
  have h2 : sumSubtrees subtrees % 2 ^ 64 = sumSubtrees subtrees := by
    unfold sumSubtrees
    cases subtrees using List.reverseRecOn with
    | nil => rfl
    | append_singleton l a =>
      rw [List.foldl_append]
      simp only [List.foldl_cons, List.foldl_nil, uint64, Nat.mod_mod]
  rw [← h2]
  simpa [sumSubtrees] using h

theorem getProllyMapCount_serialize (keys values : List Bytes) (level : Int)
    (subtrees : List Nat) :
    getProllyMapCount (SerializeProllyMap keys values level subtrees) =
      if sumLen keys = 0 then 0 else uint16 (keys.length - 1 + 1) := by
  by_cases h : level = 0
  · subst h
    rw [serialize_leaf]
    simp [getProllyMapCount, GetRootAsProllyTreeNode, ProllyTreeNode.KeyItemsLength,
      ProllyTreeNode.KeyOffsetsLength, writeItemOffsets_length, sumLen]
  · rw [serialize_internal _ _ _ _ h]
    simp [getProllyMapCount, GetRootAsProllyTreeNode, ProllyTreeNode.KeyItemsLength,
      ProllyTreeNode.KeyOffsetsLength, writeItemOffsets_length, sumLen]

theorem getProllyMapCount_of_pos (keys values : List Bytes) (level : Int) (subtrees : List Nat)
    (hkpos : 0 < sumLen keys) (hn : keys.length < 65536) :
    getProllyMapCount (SerializeProllyMap keys values level subtrees) = keys.length := by
  have hne : 0 < keys.length := by
    cases keys with
    | nil => simp [sumLen_nil] at hkpos
    | cons a l => simp
  rw [getProllyMapCount_serialize, if_neg (by omega), uint16, Nat.sub_add_cancel hne,
    Nat.mod_eq_of_lt hn]

/-! ## Round trips -/

/-- C1 (amended): for keys and values of the same length whose key bytes and
whose value bytes each total less than 65536 (so that every item offset fits
its 2 bytes), the leaf message decodes back to its inputs: item `i` of the
decoded keys is `keys[i]`, item `i` of the decoded values is `values[i]`, the
tree level is 0 and the tree count is `len(keys)`. -/
theorem leaf_round_trip (ByteLen : Nat) (keys values : List Bytes) (subtrees : List Nat)
    (_hlen : values.length = keys.length) (hk : sumLen keys < 65536)
    (hv : sumLen values < 65536) (hn : keys.length < 2 ^ 63) :
    (∃ ks, getProllyMapKeys (SerializeProllyMap keys values 0 subtrees) = some ks ∧
      ∀ (i : Nat) (hi : i < keys.length), ks.GetSlice i = some keys[i]) ∧
    (∃ vs, getProllyMapValues ByteLen (SerializeProllyMap keys values 0 subtrees) = some vs ∧
      ∀ (i : Nat) (hi : i < values.length), vs.GetSlice i = some values[i]) ∧
    getProllyMapTreeLevel (SerializeProllyMap keys values 0 subtrees) = 0 ∧
    getProllyMapTreeCount (SerializeProllyMap keys values 0 subtrees) = (keys.length : Int) := by
  refine ⟨⟨_, getProllyMapKeys_serialize keys values 0 subtrees, ?_⟩,
    ⟨_, getProllyMapValues_leaf ByteLen keys values subtrees, ?_⟩, ?_, ?_⟩
  · intro i hi
    exact getSlice_written keys _ hk i hi
  · intro i hi
    exact getSlice_written values _ hv i hi
  · rw [serialize_leaf]; rfl
  · rw [serialize_leaf]
    exact intOfUint64_uint64 _ hn

/-- The leaf round trip on scenario A of the specification. -/
theorem leaf_round_trip_witness :
    ([[49], [50], [51]] : List Bytes).length = ([[97], [98], [99]] : List Bytes).length ∧
    sumLen [[97], [98], [99]] < 65536 ∧ sumLen [[49], [50], [51]] < 65536 ∧
    ([[97], [98], [99]] : List Bytes).length < 2 ^ 63 ∧
    (∃ ks, getProllyMapKeys (SerializeProllyMap [[97], [98], [99]] [[49], [50], [51]] 0 [])
        = some ks ∧
      ∀ (i : Nat) (hi : i < ([[97], [98], [99]] : List Bytes).length),
        ks.GetSlice i = some ([[97], [98], [99]] : List Bytes)[i]) ∧
    (∃ vs, getProllyMapValues 20 (SerializeProllyMap [[97], [98], [99]] [[49], [50], [51]] 0 [])
        = some vs ∧
      ∀ (i : Nat) (hi : i < ([[49], [50], [51]] : List Bytes).length),
        vs.GetSlice i = some ([[49], [50], [51]] : List Bytes)[i]) ∧
    getProllyMapTreeLevel (SerializeProllyMap [[97], [98], [99]] [[49], [50], [51]] 0 []) = 0 ∧
    getProllyMapTreeCount (SerializeProllyMap [[97], [98], [99]] [[49], [50], [51]] 0 [])
      = ((([[97], [98], [99]] : List Bytes).length : Nat) : Int) :=
  ⟨by decide, by decide, by decide, by decide,
    leaf_round_trip 20 [[97], [98], [99]] [[49], [50], [51]] [] (by decide) (by decide)
      (by decide) (by decide)⟩

theorem bigItem_length : bigItem.length = 65536 := by
  rw [bigItem]
  exact List.length_replicate _ _

theorem writeItemOffsets_oversizeKeys (sz : Nat) : writeItemOffsets oversizeKeys sz = [0] := by
  show itemOffsetsFrom bigItem.length [[1]] = [0]
  rw [bigItem_length]
  rfl

theorem getSlice_zero_of_offset_zero (buf : Bytes) :
    SlicedBuffer.GetSlice { Buf := buf, Offs := [0].flatMap putUint16 } 0 = some [] := by
  simp only [SlicedBuffer.GetSlice, SlicedBuffer.bounds, SlicedBuffer.offsets]
  rw [readOffsets_flatMap _ (by simp)]
  simp [slice]

theorem bigItem_ne_nil : bigItem ≠ [] := by
  intro e
  have h := bigItem_length
  rw [e] at h
  simp at h

/-- C1 as stated fails: with a first key of 65536 bytes the offset of the
second key is stored as 0, and item 0 of the decoded keys is the empty item,
not the key. -/
theorem leaf_round_trip_fails_oversize :
    oversizeKeys.length = 2 ∧ ([[1], [2]] : List Bytes).length = 2 ∧
    (getProllyMapKeys (SerializeProllyMap oversizeKeys [[1], [2]] 0 [])).bind
        (fun ks => ks.GetSlice 0) = some [] ∧
    (getProllyMapKeys (SerializeProllyMap oversizeKeys [[1], [2]] 0 [])).bind
        (fun ks => ks.GetSlice 0) ≠ oversizeKeys[0]? := by
  have h : (getProllyMapKeys (SerializeProllyMap oversizeKeys [[1], [2]] 0 [])).bind
      (fun ks => ks.GetSlice 0) = some [] := by
    rw [getProllyMapKeys_serialize, writeItemOffsets_oversizeKeys, Option.some_bind]
    exact getSlice_zero_of_offset_zero oversizeKeys.flatten
  refine ⟨rfl, rfl, h, ?_⟩
  rw [h]
  simp only [oversizeKeys, List.getElem?_cons_zero, ne_eq, Option.some.injEq]
  exact fun e => bigItem_ne_nil e.symm

/-- C2 (amended): for a level `0 < n < 256`, keys whose bytes total more than 0
and less than 65536, one address of `ByteLen` bytes per key (the address array
shorter than 65536 bytes) and one subtree count per key, the counts summing to
less than `2^63`, the internal-node message decodes to the same keys, the same
addresses one per item, the same subtree counts, level `n`, and a tree count
equal to the sum of the counts. -/
theorem internal_round_trip (ByteLen : Nat) (keys values : List Bytes) (n : Int)
    (subtrees : List Nat) (hB : 0 < ByteLen) (hn0 : 0 < n) (hn : n < 256)
    (hlen : values.length = keys.length) (haddr : ∀ v ∈ values, v.length = ByteLen)
    (hsub : subtrees.length = keys.length) (hu64 : ∀ c ∈ subtrees, c < 2 ^ 64)
    (hkpos : 0 < sumLen keys) (hk : sumLen keys < 65536) (hv : sumLen values < 65536)
    (hsum : subtrees.sum < 2 ^ 63) :
    (∃ ks, getProllyMapKeys (SerializeProllyMap keys values n subtrees) = some ks ∧
      ∀ (i : Nat) (hi : i < keys.length), ks.GetSlice i = some keys[i]) ∧
    (∃ vs, getProllyMapValues ByteLen (SerializeProllyMap keys values n subtrees) = some vs ∧
      ∀ (i : Nat) (hi : i < values.length), vs.GetSlice i = some values[i]) ∧
    getProllyMapSubtrees (SerializeProllyMap keys values n subtrees) = some subtrees ∧
    getProllyMapTreeLevel (SerializeProllyMap keys values n subtrees) = n ∧
    getProllyMapTreeCount (SerializeProllyMap keys values n subtrees)
      = ((subtrees.sum : Nat) : Int) := by
  have hl : n ≠ 0 := by omega
  have hcnt : keys.length < 65536 := by
    have h1 := sumLen_fixed ByteLen values haddr
    have h2 : values.length ≤ values.length * ByteLen := Nat.le_mul_of_pos_right _ hB
    omega
  refine ⟨⟨_, getProllyMapKeys_serialize keys values n subtrees, ?_⟩,
    ⟨_, getProllyMapValues_internal ByteLen keys values n subtrees hl, ?_⟩, ?_, ?_, ?_⟩
  · intro i hi
    exact getSlice_written keys _ hk i hi
  · intro i hi
    rw [offsetsForAddressArray_flatten ByteLen hB values 0 haddr]
    exact getSlice_written values _ hv i hi
  · unfold getProllyMapSubtrees
    rw [getProllyMapCount_of_pos keys values n subtrees hkpos hcnt, ← hsub,
      serialize_internal _ _ _ _ hl]
    exact readSubtreeCounts_written subtrees hu64
  · rw [serialize_internal _ _ _ _ hl]
    simp only [getProllyMapTreeLevel, GetRootAsProllyTreeNode, ProllyTreeNode.TreeLevel, uint8]
    rw [Int.emod_eq_of_lt (by omega) hn]
    exact Int.toNat_of_nonneg (by omega)
  · rw [serialize_internal _ _ _ _ hl]
    simp only [getProllyMapTreeCount, GetRootAsProllyTreeNode, ProllyTreeNode.TreeCount]
    rw [sumSubtrees_eq]
    exact intOfUint64_uint64 _ hsum

/-- C6 (amended): for keys with at least one non-empty key (a non-empty key
region) and fewer than 65536 keys, and values of the same length, the leaf
message has item count `len(keys)` and a tree count equal to its item count. -/
theorem leaf_count (keys values : List Bytes) (subtrees : List Nat)
    (_hlen : values.length = keys.length) (hkpos : 0 < sumLen keys)
    (hn : keys.length < 65536) :
    getProllyMapCount (SerializeProllyMap keys values 0 subtrees) = keys.length ∧
    getProllyMapTreeCount (SerializeProllyMap keys values 0 subtrees)
      = ((getProllyMapCount (SerializeProllyMap keys values 0 subtrees) : Nat) : Int) := by
  have hc := getProllyMapCount_of_pos keys values 0 subtrees hkpos hn
  refine ⟨hc, ?_⟩
  rw [hc, serialize_leaf]
  exact intOfUint64_uint64 _ (by omega)

theorem manyKeys_length : manyKeys.length = 65536 := by
  rw [manyKeys, List.length_cons, List.length_replicate]

theorem manyValues_length : manyValues.length = 65536 := by
  rw [manyValues, List.length_replicate]

theorem sumLen_replicate_nil (n : Nat) : sumLen (List.replicate n []) = 0 := by
  induction n with
  | zero => rfl
  | succ k ih => rw [List.replicate_succ, sumLen_cons, ih]; rfl

theorem sumLen_manyKeys : sumLen manyKeys = 1 := by
  rw [manyKeys, sumLen_cons, sumLen_replicate_nil]; rfl

theorem getProllyMapTreeCount_leaf (keys values : List Bytes) (subtrees : List Nat) :
    getProllyMapTreeCount (SerializeProllyMap keys values 0 subtrees)
      = intOfUint64 (uint64 keys.length) := by
  rw [serialize_leaf]; rfl

/-- C6 as stated fails.  With a single zero-length key the key region is empty
and `getProllyMapCount` returns 0, while `len(keys)` and the tree count are 1;
with 65536 keys the `uint16` count wraps to 0. -/
theorem leaf_count_fails :
    (([[1]] : List Bytes).length = ([[]] : List Bytes).length ∧
      getProllyMapCount (SerializeProllyMap [[]] [[1]] 0 []) = 0 ∧
      ([[]] : List Bytes).length = 1 ∧
      getProllyMapTreeCount (SerializeProllyMap [[]] [[1]] 0 []) = 1) ∧
    (manyValues.length = manyKeys.length ∧ manyKeys.length = 65536 ∧
      getProllyMapCount (SerializeProllyMap manyKeys manyValues 0 []) = 0 ∧
      getProllyMapTreeCount (SerializeProllyMap manyKeys manyValues 0 []) = 65536) := by
  refine ⟨⟨rfl, by decide, rfl, by decide⟩, ?_, manyKeys_length, ?_, ?_⟩
  · rw [manyKeys_length, manyValues_length]
  · rw [getProllyMapCount_serialize, sumLen_manyKeys, manyKeys_length]
    decide
  · rw [getProllyMapTreeCount_leaf, manyKeys_length]
    decide

/-- The leaf count holds on scenario A of the specification. -/
theorem leaf_count_witness :
    ([[49], [50], [51]] : List Bytes).length = ([[97], [98], [99]] : List Bytes).length ∧
    0 < sumLen [[97], [98], [99]] ∧ ([[97], [98], [99]] : List Bytes).length < 65536 ∧
    getProllyMapCount (SerializeProllyMap [[97], [98], [99]] [[49], [50], [51]] 0 [])
      = ([[97], [98], [99]] : List Bytes).length ∧
    getProllyMapTreeCount (SerializeProllyMap [[97], [98], [99]] [[49], [50], [51]] 0 [])
      = ((getProllyMapCount
          (SerializeProllyMap [[97], [98], [99]] [[49], [50], [51]] 0 []) : Nat) : Int) :=
  ⟨by decide, by decide, by decide,
    leaf_count [[97], [98], [99]] [[49], [50], [51]] [] (by decide) (by decide) (by decide)⟩

/-- C2 as stated fails.  Level 256 is stored as `uint8(256) = 0`; with a single
zero-length key the item count is 0 and no subtree count is read back; counts
summing to `2^63` come back as a negative `int`; and an oversize first key is
cut off as in the leaf case. -/
theorem internal_round_trip_fails :
    getProllyMapTreeLevel (SerializeProllyMap [[97], [98]] [[1, 2], [3, 4]] 256 [5, 7]) = 0 ∧
    getProllyMapSubtrees (SerializeProllyMap [[]] [[1, 2]] 1 [5]) = some [] ∧
    getProllyMapTreeCount (SerializeProllyMap [[97]] [[1, 2]] 1 [2 ^ 63]) = -(2 ^ 63) ∧
    (getProllyMapKeys (SerializeProllyMap oversizeKeys [[1, 2], [3, 4]] 1 [5, 7])).bind
        (fun ks => ks.GetSlice 0) = some [] ∧
    oversizeKeys[0]? ≠ some [] := by
  refine ⟨by decide, by decide, by decide, ?_, ?_⟩
  · rw [getProllyMapKeys_serialize, writeItemOffsets_oversizeKeys, Option.some_bind]
    exact getSlice_zero_of_offset_zero oversizeKeys.flatten
  · simp only [oversizeKeys, List.getElem?_cons_zero, ne_eq, Option.some.injEq]
    exact bigItem_ne_nil

/-- The internal-node round trip on scenario B of the specification, with
20-byte addresses. -/
theorem internal_round_trip_witness :
    (0 < 20 ∧ (0 : Int) < 1 ∧ (1 : Int) < 256 ∧
      ([addrA, addrB] : List Bytes).length = ([[97], [98]] : List Bytes).length ∧
      (∀ v ∈ ([addrA, addrB] : List Bytes), v.length = 20) ∧
      ([5, 7] : List Nat).length = ([[97], [98]] : List Bytes).length ∧
      (∀ c ∈ ([5, 7] : List Nat), c < 2 ^ 64) ∧
      0 < sumLen [[97], [98]] ∧ sumLen [[97], [98]] < 65536 ∧ sumLen [addrA, addrB] < 65536 ∧
      ([5, 7] : List Nat).sum < 2 ^ 63) ∧
    (∃ ks, getProllyMapKeys (SerializeProllyMap [[97], [98]] [addrA, addrB] 1 [5, 7])
        = some ks ∧
      ∀ (i : Nat) (hi : i < ([[97], [98]] : List Bytes).length),
        ks.GetSlice i = some ([[97], [98]] : List Bytes)[i]) ∧
    (∃ vs, getProllyMapValues 20 (SerializeProllyMap [[97], [98]] [addrA, addrB] 1 [5, 7])
        = some vs ∧
      ∀ (i : Nat) (hi : i < ([addrA, addrB] : List Bytes).length),
        vs.GetSlice i = some ([addrA, addrB] : List Bytes)[i]) ∧
    getProllyMapSubtrees (SerializeProllyMap [[97], [98]] [addrA, addrB] 1 [5, 7])
      = some [5, 7] ∧
    getProllyMapTreeLevel (SerializeProllyMap [[97], [98]] [addrA, addrB] 1 [5, 7]) = 1 ∧
    getProllyMapTreeCount (SerializeProllyMap [[97], [98]] [addrA, addrB] 1 [5, 7])
      = ((([5, 7] : List Nat).sum : Nat) : Int) :=
  ⟨⟨by decide, by decide, by decide, by decide, by decide, by decide, by decide, by decide,
      by decide, by decide, by decide⟩,
    internal_round_trip 20 [[97], [98]] [addrA, addrB] 1 [5, 7] (by decide) (by decide)
      (by decide) (by decide) (by decide) (by decide) (by decide) (by decide) (by decide)
      (by decide) (by decide)⟩

/-! ## The address walk -/

theorem walkLoop_never_fails {σ ε : Type} (cb : σ → Hash → σ × Option ε)
    (addrAt : Nat → Option Hash) (f : Nat → Hash) (hcb : ∀ s a, (cb s a).2 = none)
    (idxs : List Nat) (hin : ∀ i ∈ idxs, addrAt i = some (f i)) (s : σ) :
    (walkLoop cb addrAt idxs s).calls = idxs.map (fun i => (f i, none)) ∧
    (walkLoop cb addrAt idxs s).result = WalkResult.nil := by
  induction idxs generalizing s with
  | nil => simp [walkLoop]
  | cons i rest ih =>
    have hi := hin i (by simp)
    have hrest := fun s1 => ih (fun j hj => hin j (by simp [hj])) s1
    rcases hc : cb s (f i) with ⟨s1, _ | e⟩
    · simp only [walkLoop, hi, hc, List.map_cons]
      exact ⟨by rw [(hrest s1).1], (hrest s1).2⟩
    · have := hcb s (f i)
      rw [hc] at this
      simp at this

theorem walkLoop_error_last {σ ε : Type} (cb : σ → Hash → σ × Option ε)
    (addrAt : Nat → Option Hash) (idxs : List Nat) (s : σ) (i : Nat) (a : Hash) (e : ε)
    (h : (walkLoop cb addrAt idxs s).calls[i]? = some (a, some e)) :
    (walkLoop cb addrAt idxs s).result = WalkResult.err e ∧
    (walkLoop cb addrAt idxs s).calls.length = i + 1 := by
  induction idxs generalizing s i with
  | nil => simp [walkLoop] at h
  | cons k rest ih =>
    rcases ha : addrAt k with _ | addr
    · simp [walkLoop, ha] at h
    · rcases hc : cb s addr with ⟨s1, _ | e1⟩
      · simp only [walkLoop, ha, hc] at h ⊢
        cases i with
        | zero => simp at h
        | succ j =>
          simp only [List.getElem?_cons_succ] at h
          have := ih s1 j h
          exact ⟨this.1, by simp [this.2]⟩
      · simp only [walkLoop, ha, hc] at h ⊢
        cases i with
        | zero =>
          simp only [List.getElem?_cons_zero, Option.some.injEq, Prod.mk.injEq] at h
          rw [h.2]
          simp
        | succ j => simp at h

theorem walkLoop_ne_assertFailed {σ ε : Type} (cb : σ → Hash → σ × Option ε)
    (addrAt : Nat → Option Hash) (idxs : List Nat) (s : σ) :
    (walkLoop cb addrAt idxs s).result ≠ WalkResult.assertFailed := by
  induction idxs generalizing s with
  | nil => simp [walkLoop]
  | cons k rest ih =>
    rcases ha : addrAt k with _ | addr
    · simp [walkLoop, ha]
    · rcases hc : cb s addr with ⟨s1, _ | e1⟩
      · simp only [walkLoop, ha, hc]
        exact ih s1
      · simp [walkLoop, ha, hc]

theorem stateAfter_cons {σ ε : Type} (cb : σ → Hash → σ × Option ε) (s : σ) (a : Hash)
    (addrs : List Hash) :
    stateAfter cb s (a :: addrs) = stateAfter cb (cb s a).1 addrs := rfl

theorem stateAfter_append {σ ε : Type} (cb : σ → Hash → σ × Option ε) (s : σ)
    (xs ys : List Hash) :
    stateAfter cb s (xs ++ ys) = stateAfter cb (stateAfter cb s xs) ys := by
  simp [stateAfter, List.foldl_append]

/-- The log of a loop is the record of what the callback did: the state left
is the state after the logged invocations, and every logged error is the one
the callback returned in the state reached by the invocations before it. -/
theorem walkLoop_faithful {σ ε : Type} (cb : σ → Hash → σ × Option ε)
    (addrAt : Nat → Option Hash) (idxs : List Nat) (s : σ) :
    (walkLoop cb addrAt idxs s).state
      = stateAfter cb s ((walkLoop cb addrAt idxs s).calls.map Prod.fst) ∧
    ∀ (j : Nat) (b : Hash) (x : Option ε),
      (walkLoop cb addrAt idxs s).calls[j]? = some (b, x) →
      (cb (stateAfter cb s (((walkLoop cb addrAt idxs s).calls.take j).map Prod.fst)) b).2
        = x := by
  induction idxs generalizing s with
  | nil => simp [walkLoop, stateAfter]
  | cons k rest ih =>
    rcases ha : addrAt k with _ | addr
    · simp [walkLoop, ha, stateAfter]
    · rcases hc : cb s addr with ⟨s1, _ | e1⟩
      · have hs1 : (cb s addr).1 = s1 := by rw [hc]
        have ih1 := ih s1
        simp only [walkLoop, ha, hc, List.map_cons, stateAfter_cons, hs1]
        refine ⟨ih1.1, ?_⟩
        intro j b x hj
        cases j with
        | zero =>
          simp only [List.getElem?_cons_zero, Option.some.injEq, Prod.mk.injEq] at hj
          simp only [List.take_zero, List.map_nil, stateAfter, List.foldl_nil]
          rw [← hj.1, hc, ← hj.2]
        | succ i =>
          simp only [List.getElem?_cons_succ] at hj
          simp only [List.take_succ_cons, List.map_cons, stateAfter_cons, hs1]
          exact ih1.2 i b x hj
      · have hs1 : (cb s addr).1 = s1 := by rw [hc]
        simp only [walkLoop, ha, hc, List.map_cons, List.map_nil, stateAfter_cons, hs1]
        refine ⟨rfl, ?_⟩
        intro j b x hj
        cases j with
        | zero =>
          simp only [List.getElem?_cons_zero, Option.some.injEq, Prod.mk.injEq] at hj
          simp only [List.take_zero, List.map_nil, stateAfter, List.foldl_nil]
          rw [← hj.1, hc, ← hj.2]
        | succ i => simp at hj

/-- The log of a walk is the record of what the callback did. -/
theorem walk_faithful {σ ε : Type} (ByteLen : Nat) (msg : Message)
    (cb : σ → Hash → σ × Option ε) (s : σ) :
    (walkProllyMapAddresses ByteLen msg cb s).state
      = stateAfter cb s ((walkProllyMapAddresses ByteLen msg cb s).calls.map Prod.fst) ∧
    ∀ (j : Nat) (b : Hash) (x : Option ε),
      (walkProllyMapAddresses ByteLen msg cb s).calls[j]? = some (b, x) →
      (cb (stateAfter cb s
        (((walkProllyMapAddresses ByteLen msg cb s).calls.take j).map Prod.fst)) b).2 = x := by
  have P1 := walkLoop_faithful cb
    (fun i => (slice (GetRootAsProllyTreeNode msg).AddressArrayBytes (i * addrSz ByteLen)
      ((i + 1) * addrSz ByteLen)).bind (hash.New ByteLen))
    (List.range (((GetRootAsProllyTreeNode msg).AddressArrayBytes.getD []).length / ByteLen)) s
  have P2 := walkLoop_faithful cb
    (fun i => ((GetRootAsProllyTreeNode msg).ValueAddressOffsets i).bind
      (fun o => (slice (GetRootAsProllyTreeNode msg).AddressArrayBytes o
        (o + addrSz ByteLen)).bind (hash.New ByteLen)))
    (List.range (GetRootAsProllyTreeNode msg).ValueAddressOffsetsLength)
  unfold walkProllyMapAddresses
  simp only []
  generalize walkLoop cb
    (fun i => (slice (GetRootAsProllyTreeNode msg).AddressArrayBytes (i * addrSz ByteLen)
      ((i + 1) * addrSz ByteLen)).bind (hash.New ByteLen))
    (List.range (((GetRootAsProllyTreeNode msg).AddressArrayBytes.getD []).length / ByteLen)) s
    = r1 at P1 ⊢
  have P2' := P2 r1.state
  generalize walkLoop cb
    (fun i => ((GetRootAsProllyTreeNode msg).ValueAddressOffsets i).bind
      (fun o => (slice (GetRootAsProllyTreeNode msg).AddressArrayBytes o
        (o + addrSz ByteLen)).bind (hash.New ByteLen)))
    (List.range (GetRootAsProllyTreeNode msg).ValueAddressOffsetsLength) r1.state
    = r2 at P2' ⊢
  have happ : r2.state = stateAfter cb s ((r1.calls ++ r2.calls).map Prod.fst) ∧
      ∀ (j : Nat) (b : Hash) (x : Option ε), (r1.calls ++ r2.calls)[j]? = some (b, x) →
        (cb (stateAfter cb s (((r1.calls ++ r2.calls).take j).map Prod.fst)) b).2 = x := by
    refine ⟨?_, ?_⟩
    · rw [List.map_append, stateAfter_append, ← P1.1]
      exact P2'.1
    · intro j b x hj
      by_cases hlt : j < r1.calls.length
      · rw [List.getElem?_append_left hlt] at hj
        rw [List.take_append_of_le_length (by omega)]
        exact P1.2 j b x hj
      · rw [List.getElem?_append_right (by omega)] at hj
        have ht : (r1.calls ++ r2.calls).take j
            = r1.calls ++ r2.calls.take (j - r1.calls.length) := by
          rw [List.take_append_eq_append_take, List.take_of_length_le (by omega)]
        rw [ht, List.map_append, stateAfter_append, ← P1.1]
        exact P2'.2 (j - r1.calls.length) b x hj
  split
  · split
    · split <;> exact happ
    · exact happ
  · exact P1

theorem walk_error_last {σ ε : Type} (ByteLen : Nat) (msg : Message)
    (cb : σ → Hash → σ × Option ε) (s : σ) (i : Nat) (a : Hash) (e : ε)
    (h : (walkProllyMapAddresses ByteLen msg cb s).calls[i]? = some (a, some e)) :
    (walkProllyMapAddresses ByteLen msg cb s).result = WalkResult.err e ∧
    (walkProllyMapAddresses ByteLen msg cb s).calls.length = i + 1 := by
  have P1 := walkLoop_error_last cb
    (fun i => (slice (GetRootAsProllyTreeNode msg).AddressArrayBytes (i * addrSz ByteLen)
      ((i + 1) * addrSz ByteLen)).bind (hash.New ByteLen))
    (List.range (((GetRootAsProllyTreeNode msg).AddressArrayBytes.getD []).length / ByteLen)) s
  have P2 := walkLoop_error_last cb
    (fun i => ((GetRootAsProllyTreeNode msg).ValueAddressOffsets i).bind
      (fun o => (slice (GetRootAsProllyTreeNode msg).AddressArrayBytes o
        (o + addrSz ByteLen)).bind (hash.New ByteLen)))
    (List.range (GetRootAsProllyTreeNode msg).ValueAddressOffsetsLength)
  revert h
  unfold walkProllyMapAddresses
  simp only []
  generalize walkLoop cb
    (fun i => (slice (GetRootAsProllyTreeNode msg).AddressArrayBytes (i * addrSz ByteLen)
      ((i + 1) * addrSz ByteLen)).bind (hash.New ByteLen))
    (List.range (((GetRootAsProllyTreeNode msg).AddressArrayBytes.getD []).length / ByteLen)) s
    = r1 at P1 ⊢
  have P2' := P2 r1.state
  generalize walkLoop cb
    (fun i => ((GetRootAsProllyTreeNode msg).ValueAddressOffsets i).bind
      (fun o => (slice (GetRootAsProllyTreeNode msg).AddressArrayBytes o
        (o + addrSz ByteLen)).bind (hash.New ByteLen)))
    (List.range (GetRootAsProllyTreeNode msg).ValueAddressOffsetsLength) r1.state
    = r2 at P2' ⊢
  have happ : r1.result = WalkResult.nil →
      (r1.calls ++ r2.calls)[i]? = some (a, some e) →
      r2.result = WalkResult.err e ∧ (r1.calls ++ r2.calls).length = i + 1 := by
    intro h1 hget
    by_cases hi : i < r1.calls.length
    · rw [List.getElem?_append_left hi] at hget
      have := (P1 i a e hget).1
      rw [h1] at this
      cases this
    · rw [List.getElem?_append_right (by omega)] at hget
      have := P2' (i - r1.calls.length) a e hget
      exact ⟨this.1, by rw [List.length_append, this.2]; omega⟩
  split
  · rename_i h1
    split
    · rename_i h2
      split <;>
      · intro hget
        have := (happ h1 hget).1
        rw [h2] at this
        cases this
    · intro hget
      exact happ h1 hget
  · intro hget
    exact P1 i a e hget

/-- C5: whatever the message and the (stateful) callback, if invocation `i` of
the callback returns an error `e`, then the walk returns exactly `e`; the
callback was invoked `i + 1` times in all and no earlier invocation returned
an error; `e` is what the callback returned in the state its first `i`
invocations left; and the callback was invoked on no address after that one:
the state it is left in is the state after those `i + 1` invocations. -/
theorem walk_short_circuit {σ ε : Type} (ByteLen : Nat) (msg : Message)
    (cb : σ → Hash → σ × Option ε) (s : σ) (i : Nat) (a : Hash) (e : ε)
    (h : (walkProllyMapAddresses ByteLen msg cb s).calls[i]? = some (a, some e)) :
    (walkProllyMapAddresses ByteLen msg cb s).result = WalkResult.err e ∧
    (walkProllyMapAddresses ByteLen msg cb s).calls.length = i + 1 ∧
    (∀ (j : Nat) (b : Hash) (x : Option ε), j < i →
      (walkProllyMapAddresses ByteLen msg cb s).calls[j]? = some (b, x) → x = none) ∧
    (cb (stateAfter cb s
      (((walkProllyMapAddresses ByteLen msg cb s).calls.take i).map Prod.fst)) a).2 = some e ∧
    (walkProllyMapAddresses ByteLen msg cb s).state
      = stateAfter cb s
          (((walkProllyMapAddresses ByteLen msg cb s).calls.take (i + 1)).map Prod.fst) := by
  have key := walk_error_last ByteLen msg cb s i a e h
  have hf := walk_faithful ByteLen msg cb s
  refine ⟨key.1, key.2, ?_, hf.2 i a (some e) h, ?_⟩
  · intro j b x hj hget
    cases x with
    | none => rfl
    | some e1 =>
      have := walk_error_last ByteLen msg cb s j b e1 hget
      omega
  · rw [List.take_of_length_le (by omega)]
    exact hf.1

theorem map_getD_range (l : List Bytes) :
    (List.range l.length).map (fun i => l[i]?.getD []) = l := by
  apply List.ext_getElem
  · simp
  · intro i h1 h2
    simp at h1
    simp [h1]

theorem sumLen_take_fixed (ByteLen : Nat) (values : List Bytes)
    (h : ∀ v ∈ values, v.length = ByteLen) (i : Nat) (hi : i ≤ values.length) :
    sumLen (values.take i) = i * ByteLen := by
  rw [sumLen_fixed ByteLen (values.take i) (fun v hv => h v (List.mem_of_mem_take hv)),
    List.length_take, Nat.min_eq_left hi]

/-- Entry `i` of an array of fixed-width addresses is the `i`-th address. -/
theorem address_at (ByteLen : Nat) (values : List Bytes)
    (h : ∀ v ∈ values, v.length = ByteLen) (i : Nat) (hi : i < values.length) :
    (slice (some values.flatten) (i * addrSz ByteLen) ((i + 1) * addrSz ByteLen)).bind
      (hash.New ByteLen) = some (values[i]?.getD []) := by
  have h1 := slice_flatten values i hi
  rw [sumLen_take_fixed ByteLen values h i (by omega),
    sumLen_take_fixed ByteLen values h (i + 1) (by omega)] at h1
  rw [addrSz, h1, Option.some_bind, hash.New, if_pos (h _ (List.getElem_mem _))]
  simp [hi]

/-- The walk over an encoded internal node whose addresses have `ByteLen` bytes,
with a callback that never fails. -/
theorem walk_serialize_internal {σ ε : Type} (ByteLen : Nat) (keys values : List Bytes)
    (level : Int) (subtrees : List Nat) (cb : σ → Hash → σ × Option ε) (s : σ)
    (hB : 0 < ByteLen) (hl : level ≠ 0) (haddr : ∀ v ∈ values, v.length = ByteLen)
    (hcb : ∀ s a, (cb s a).2 = none) :
    (walkProllyMapAddresses ByteLen (SerializeProllyMap keys values level subtrees) cb s).calls
      = values.map (fun v => (v, none)) ∧
    (walkProllyMapAddresses ByteLen (SerializeProllyMap keys values level subtrees) cb s).result
      = WalkResult.nil := by
  rw [serialize_internal _ _ _ _ hl]
  have hn : (values.flatten).length / ByteLen = values.length := by
    rw [length_flatten_eq, sumLen_fixed ByteLen values haddr, Nat.mul_div_cancel _ hB]
  have W := walkLoop_never_fails cb
    (fun i => (slice (some values.flatten) (i * addrSz ByteLen)
      ((i + 1) * addrSz ByteLen)).bind (hash.New ByteLen))
    (fun i => values[i]?.getD []) hcb (List.range values.length)
    (fun i hi => address_at ByteLen values haddr i (List.mem_range.mp hi)) s
  have hmap : (List.range values.length).map (fun i => (values[i]?.getD [], (none : Option ε)))
      = values.map (fun v => (v, none)) := by
    conv_rhs => rw [← map_getD_range values]
    rw [List.map_map]
    rfl
  rw [hmap] at W
  simp only [walkProllyMapAddresses, GetRootAsProllyTreeNode, ProllyTreeNode.AddressArrayBytes,
    ProllyTreeNode.ValueAddressOffsetsLength, ProllyTreeNode.ValueItemsBytes,
    Option.getD_some, Option.getD_none, hn, W.2, List.length_nil, List.range_zero, walkLoop,
    assertFalse, Option.isSome_some, Option.isSome_none, Bool.and_false, List.append_nil,
    Bool.false_eq_true, if_false]
  exact ⟨W.1, trivial⟩

/-- C4: for an internal node (`level ≠ 0`) encoded by `SerializeProllyMap`
from `k` child addresses of `ByteLen` bytes and a callback that never fails,
the walk invokes the callback exactly `k` times, invocation `i` receiving the
`i`-th address given to the encoder, and returns nil; the callback is left in
the state that its invocations on those `k` addresses, in order, produce. -/
theorem walk_internal_complete {σ ε : Type} (ByteLen : Nat) (keys values : List Bytes)
    (level : Int) (subtrees : List Nat) (cb : σ → Hash → σ × Option ε) (s : σ)
    (hB : 0 < ByteLen) (hl : level ≠ 0) (_hlen : values.length = keys.length)
    (_hsub : subtrees.length = keys.length) (haddr : ∀ v ∈ values, v.length = ByteLen)
    (hcb : ∀ s a, (cb s a).2 = none) :
    (walkProllyMapAddresses ByteLen (SerializeProllyMap keys values level subtrees)
      cb s).calls.length = values.length ∧
    (∀ (i : Nat) (hi : i < values.length),
      (walkProllyMapAddresses ByteLen (SerializeProllyMap keys values level subtrees)
        cb s).calls[i]? = some (values[i], none)) ∧
    (walkProllyMapAddresses ByteLen (SerializeProllyMap keys values level subtrees)
      cb s).result = WalkResult.nil ∧
    (walkProllyMapAddresses ByteLen (SerializeProllyMap keys values level subtrees)
      cb s).state = stateAfter cb s values := by
  have W := walk_serialize_internal ByteLen keys values level subtrees cb s hB hl haddr hcb
  have hf := walk_faithful ByteLen (SerializeProllyMap keys values level subtrees) cb s
  refine ⟨?_, ?_, W.2, ?_⟩
  · rw [W.1, List.length_map]
  · intro i hi
    rw [W.1, List.getElem?_map, List.getElem?_eq_getElem hi]
    rfl
  · rw [hf.1, W.1, List.map_map]
    congr 1
    exact List.map_id _

/-- Scenario B of the specification walked with a counting callback, which
ends having counted 2 invocations. -/
theorem walk_internal_complete_witness :
    (0 < 20 ∧ (1 : Int) ≠ 0 ∧
      ([addrA, addrB] : List Bytes).length = ([[97], [98]] : List Bytes).length ∧
      ([5, 7] : List Nat).length = ([[97], [98]] : List Bytes).length ∧
      (∀ v ∈ ([addrA, addrB] : List Bytes), v.length = 20) ∧
      (∀ (s : Nat) (a : Hash), (countingCallback s a).2 = none)) ∧
    ((walkProllyMapAddresses 20 (SerializeProllyMap [[97], [98]] [addrA, addrB] 1 [5, 7])
        countingCallback 0).state = 2 ∧
      stateAfter countingCallback 0 [addrA, addrB] = 2) ∧
    (walkProllyMapAddresses 20 (SerializeProllyMap [[97], [98]] [addrA, addrB] 1 [5, 7])
      countingCallback 0).calls.length = ([addrA, addrB] : List Bytes).length ∧
    (∀ (i : Nat) (hi : i < ([addrA, addrB] : List Bytes).length),
      (walkProllyMapAddresses 20 (SerializeProllyMap [[97], [98]] [addrA, addrB] 1 [5, 7])
        countingCallback 0).calls[i]? = some (([addrA, addrB] : List Bytes)[i], none)) ∧
    (walkProllyMapAddresses 20 (SerializeProllyMap [[97], [98]] [addrA, addrB] 1 [5, 7])
      countingCallback 0).result = WalkResult.nil ∧
    (walkProllyMapAddresses 20 (SerializeProllyMap [[97], [98]] [addrA, addrB] 1 [5, 7])
      countingCallback 0).state = stateAfter countingCallback 0 [addrA, addrB] :=
  ⟨⟨by decide, by decide, by decide, by decide, by decide, fun _ _ => rfl⟩,
    ⟨by decide, by decide⟩,
    walk_internal_complete 20 [[97], [98]] [addrA, addrB] 1 [5, 7] countingCallback 0
      (by decide) (by decide) (by decide) (by decide) (by decide) (fun _ _ => rfl)⟩

/-- A walk over three addresses with a callback that fails on the second one:
the walk returns that error, and the callback, which counts its invocations,
ends at 2: the third address is not visited. -/
theorem walk_short_circuit_witness :
    (walkProllyMapAddresses 20
      (SerializeProllyMap [[97], [98], [99]] [addrA, addrB, addrC] 1 [5, 7, 9])
      failSecond 0).calls[1]? = some (addrB, some "stop") ∧
    ((walkProllyMapAddresses 20
        (SerializeProllyMap [[97], [98], [99]] [addrA, addrB, addrC] 1 [5, 7, 9])
        failSecond 0).state = 2 ∧
      (walkProllyMapAddresses 20
        (SerializeProllyMap [[97], [98], [99]] [addrA, addrB, addrC] 1 [5, 7, 9])
        failSecond 0).calls.map Prod.fst = [addrA, addrB] ∧
      (SerializeProllyMap [[97], [98], [99]] [addrA, addrB, addrC] 1 [5, 7, 9]).AddressArrayBytes
        = some (addrA ++ addrB ++ addrC)) ∧
    (walkProllyMapAddresses 20
      (SerializeProllyMap [[97], [98], [99]] [addrA, addrB, addrC] 1 [5, 7, 9])
      failSecond 0).result = WalkResult.err "stop" ∧
    (walkProllyMapAddresses 20
      (SerializeProllyMap [[97], [98], [99]] [addrA, addrB, addrC] 1 [5, 7, 9])
      failSecond 0).calls.length = 1 + 1 ∧
    (∀ (j : Nat) (b : Hash) (x : Option String), j < 1 →
      (walkProllyMapAddresses 20
        (SerializeProllyMap [[97], [98], [99]] [addrA, addrB, addrC] 1 [5, 7, 9])
        failSecond 0).calls[j]? = some (b, x) → x = none) ∧
    (failSecond (stateAfter failSecond 0
      (((walkProllyMapAddresses 20
        (SerializeProllyMap [[97], [98], [99]] [addrA, addrB, addrC] 1 [5, 7, 9])
        failSecond 0).calls.take 1).map Prod.fst)) addrB).2 = some "stop" ∧
    (walkProllyMapAddresses 20
      (SerializeProllyMap [[97], [98], [99]] [addrA, addrB, addrC] 1 [5, 7, 9])
      failSecond 0).state
      = stateAfter failSecond 0
          (((walkProllyMapAddresses 20
            (SerializeProllyMap [[97], [98], [99]] [addrA, addrB, addrC] 1 [5, 7, 9])
            failSecond 0).calls.take (1 + 1)).map Prod.fst) :=
  ⟨by decide, ⟨by decide, by decide, by decide⟩,
    walk_short_circuit 20
      (SerializeProllyMap [[97], [98], [99]] [addrA, addrB, addrC] 1 [5, 7, 9])
      failSecond 0 1 addrB "stop" (by decide)⟩

/-- The closing assertion of a walk can only fail on a message that has both
an address array and a value-item region. -/
theorem walk_assertFailed_only_if {σ ε : Type} (ByteLen : Nat) (msg : Message)
    (cb : σ → Hash → σ × Option ε) (s : σ)
    (h : (walkProllyMapAddresses ByteLen msg cb s).result = WalkResult.assertFailed) :
    msg.addressArray.isSome = true ∧ msg.valueItems.isSome = true := by
  have P1 := walkLoop_ne_assertFailed cb
    (fun i => (slice (GetRootAsProllyTreeNode msg).AddressArrayBytes (i * addrSz ByteLen)
      ((i + 1) * addrSz ByteLen)).bind (hash.New ByteLen))
    (List.range (((GetRootAsProllyTreeNode msg).AddressArrayBytes.getD []).length / ByteLen)) s
  have P2 := walkLoop_ne_assertFailed cb
    (fun i => ((GetRootAsProllyTreeNode msg).ValueAddressOffsets i).bind
      (fun o => (slice (GetRootAsProllyTreeNode msg).AddressArrayBytes o
        (o + addrSz ByteLen)).bind (hash.New ByteLen)))
    (List.range (GetRootAsProllyTreeNode msg).ValueAddressOffsetsLength)
  revert h
  unfold walkProllyMapAddresses
  simp only []
  generalize walkLoop cb
    (fun i => (slice (GetRootAsProllyTreeNode msg).AddressArrayBytes (i * addrSz ByteLen)
      ((i + 1) * addrSz ByteLen)).bind (hash.New ByteLen))
    (List.range (((GetRootAsProllyTreeNode msg).AddressArrayBytes.getD []).length / ByteLen)) s
    = r1 at P1 ⊢
  have P2' := P2 r1.state
  generalize walkLoop cb
    (fun i => ((GetRootAsProllyTreeNode msg).ValueAddressOffsets i).bind
      (fun o => (slice (GetRootAsProllyTreeNode msg).AddressArrayBytes o
        (o + addrSz ByteLen)).bind (hash.New ByteLen)))
    (List.range (GetRootAsProllyTreeNode msg).ValueAddressOffsetsLength) r1.state
    = r2 at P2' ⊢
  split
  · split
    · split
      · rename_i hassert
        intro _
        simp only [assertFalse, GetRootAsProllyTreeNode, ProllyTreeNode.AddressArrayBytes,
          ProllyTreeNode.ValueItemsBytes] at hassert
        split at hassert
        · rename_i hb
          simpa using hb
        · cases hassert
      · intro h; cases h
    · intro h; exact absurd h P2'
  · intro h; exact absurd h P1

/-- C8: a message written by `SerializeProllyMap`, whatever the level and the
inputs, never has both a value-item region and an address array, and the
closing assertion of `walkProllyMapAddresses` never fails on it. -/
theorem serialize_exclusive (keys values : List Bytes) (level : Int) (subtrees : List Nat) :
    ¬ ((SerializeProllyMap keys values level subtrees).ValueItemsBytes ≠ none ∧
        (SerializeProllyMap keys values level subtrees).AddressArrayBytes ≠ none) ∧
    ∀ (σ ε : Type) (ByteLen : Nat) (cb : σ → Hash → σ × Option ε) (s : σ),
      (walkProllyMapAddresses ByteLen (SerializeProllyMap keys values level subtrees)
        cb s).result ≠ WalkResult.assertFailed := by
  have hex : ¬ ((SerializeProllyMap keys values level subtrees).addressArray.isSome = true ∧
      (SerializeProllyMap keys values level subtrees).valueItems.isSome = true) := by
    by_cases h : level = 0
    · subst h
      rw [serialize_leaf]
      simp
    · rw [serialize_internal _ _ _ _ h]
      simp
  refine ⟨?_, ?_⟩
  · intro hboth
    apply hex
    simp only [ProllyTreeNode.ValueItemsBytes, ProllyTreeNode.AddressArrayBytes] at hboth
    exact ⟨Option.isSome_iff_ne_none.mpr hboth.2, Option.isSome_iff_ne_none.mpr hboth.1⟩
  · intro σ ε ByteLen cb s hfail
    exact hex (walk_assertFailed_only_if ByteLen _ cb s hfail)

/-- On any message without an address array that lists at least one value
address offset, the second loop of the walk slices the absent array: the walk
panics and the callback is never invoked. -/
theorem walk_without_address_array {σ ε : Type} (ByteLen : Nat) (msg : Message)
    (cb : σ → Hash → σ × Option ε) (s : σ) (o : Nat) (rest : List Nat) (hB : 0 < ByteLen)
    (harr : msg.addressArray = none) (hoffs : msg.valueAddressOffsets = some (o :: rest)) :
    (walkProllyMapAddresses ByteLen msg cb s).calls = [] ∧
    (walkProllyMapAddresses ByteLen msg cb s).result = WalkResult.outOfRange := by
  have hs : slice none o (o + addrSz ByteLen) = none := by
    simp only [slice, addrSz, Option.getD_none, List.length_nil]
    rw [if_neg (by omega)]
  simp only [walkProllyMapAddresses, GetRootAsProllyTreeNode, ProllyTreeNode.AddressArrayBytes,
    ProllyTreeNode.ValueAddressOffsetsLength, ProllyTreeNode.ValueAddressOffsets,
    ProllyTreeNode.ValueItemsBytes, harr, hoffs, Option.getD_none, Option.getD_some,
    List.length_nil, Nat.zero_div, List.range_zero, walkLoop, List.length_cons,
    List.range_succ_eq_map, List.getElem?_cons_zero, Option.some_bind, hs, Option.none_bind,
    List.nil_append]
  exact ⟨trivial, trivial⟩

/-- C3 fails on the code: on a leaf whose value is an out-of-line address the
second loop slices the (absent) address array instead of the value items, and
the walk panics before the callback is ever invoked, although the 20 bytes at
offset 0 of the value items are the address. -/
theorem walk_leaf_value_address :
    leafWithAddress.ValueAddressOffsetsLength = 1 ∧
    leafWithAddress.ValueAddressOffsets 0 = some 0 ∧
    slice leafWithAddress.ValueItemsBytes 0 (0 + addrSz 20) = some addrA ∧
    (walkProllyMapAddresses 20 leafWithAddress countingCallback 0).calls = [] ∧
    (walkProllyMapAddresses 20 leafWithAddress countingCallback 0).result
      = WalkResult.outOfRange := by
  refine ⟨by decide, by decide, by decide, by decide, by decide⟩

/-! ## The offset-vector invariant -/

theorem itemOffsetsFrom_ge (off : Nat) (rest : List Bytes) (h : off + sumLen rest < 65536) :
    ∀ x ∈ itemOffsetsFrom off rest, off ≤ x := by
  induction rest generalizing off with
  | nil => simp [itemOffsetsFrom]
  | cons a l ih =>
    rw [sumLen_cons] at h
    intro x hx
    simp only [itemOffsetsFrom, List.mem_cons] at hx
    rcases hx with hx | hx
    · rw [hx, uint16, Nat.mod_eq_of_lt (by omega)]
    · have := ih (off + a.length) (by omega) x hx
      omega

theorem itemOffsetsFrom_sorted_le (off : Nat) (rest : List Bytes)
    (h : off + sumLen rest < 65536) : (itemOffsetsFrom off rest).Sorted (· ≤ ·) := by
  induction rest generalizing off with
  | nil => simp [itemOffsetsFrom]
  | cons a l ih =>
    rw [sumLen_cons] at h
    rw [itemOffsetsFrom, List.sorted_cons]
    refine ⟨?_, ih (off + a.length) (by omega)⟩
    intro x hx
    have := itemOffsetsFrom_ge (off + a.length) l (by omega) x hx
    rw [uint16, Nat.mod_eq_of_lt (by omega)]
    omega

theorem itemOffsetsFrom_sorted_lt (off : Nat) (rest : List Bytes)
    (h : off + sumLen rest < 65536) (hne : ∀ x ∈ rest, x ≠ []) :
    (itemOffsetsFrom off rest).Sorted (· < ·) := by
  induction rest generalizing off with
  | nil => simp [itemOffsetsFrom]
  | cons a l ih =>
    rw [sumLen_cons] at h
    rw [itemOffsetsFrom, List.sorted_cons]
    refine ⟨?_, ih (off + a.length) (by omega) (fun x hx => hne x (by simp [hx]))⟩
    intro x hx
    have h1 := itemOffsetsFrom_ge (off + a.length) l (by omega) x hx
    have h2 : 0 < a.length := List.length_pos.mpr (hne a (by simp))
    rw [uint16, Nat.mod_eq_of_lt (by omega)]
    omega

theorem writeItemOffsets_sorted_le (items : List Bytes) (sz : Nat)
    (h : sumLen items < 65536) : (writeItemOffsets items sz).Sorted (· ≤ ·) := by
  cases items with
  | nil => simp [writeItemOffsets]
  | cons a l =>
    rw [sumLen_cons] at h
    exact itemOffsetsFrom_sorted_le _ _ h

theorem writeItemOffsets_sorted_lt (items : List Bytes) (sz : Nat)
    (h : sumLen items < 65536) (hne : ∀ x ∈ items, x ≠ []) :
    (writeItemOffsets items sz).Sorted (· < ·) := by
  cases items with
  | nil => simp [writeItemOffsets]
  | cons a l =>
    rw [sumLen_cons] at h
    exact itemOffsetsFrom_sorted_lt _ _ h (fun x hx => hne x (by simp [hx]))

/-- The value buffer decoded from a message of any level, the values of an
internal node being addresses of `ByteLen` bytes. -/
theorem getProllyMapValues_serialize (ByteLen : Nat) (keys values : List Bytes) (level : Int)
    (subtrees : List Nat)
    (hint : level ≠ 0 → 0 < ByteLen ∧ ∀ v ∈ values, v.length = ByteLen) :
    getProllyMapValues ByteLen (SerializeProllyMap keys values level subtrees) =
      some { Buf := values.flatten,
             Offs := (writeItemOffsets values (sumLen values)).flatMap putUint16 } := by
  by_cases h : level = 0
  · subst h
    exact getProllyMapValues_leaf ByteLen keys values subtrees
  · rw [getProllyMapValues_internal ByteLen keys values level subtrees h,
      offsetsForAddressArray_flatten ByteLen (hint h).1 values (sumLen values) (hint h).2]

theorem offsets_written (items : List Bytes) (sz : Nat) :
    SlicedBuffer.offsets
      { Buf := items.flatten, Offs := (writeItemOffsets items sz).flatMap putUint16 }
      = writeItemOffsets items sz := by
  rw [SlicedBuffer.offsets]
  exact readOffsets_flatMap _ (writeItemOffsets_lt _ _)

/-- C7 (amended): for a message encoded from a non-empty list of keys and
matching values (for an internal node, one address of `ByteLen` bytes per key),
the key bytes and the value bytes each totalling less than 65536, both decoded
sliced buffers hold exactly `len(keys) - 1` offsets of 2 bytes, which is
`getProllyMapCount(m) - 1` as soon as one key is non-empty and there are fewer
than 65536 keys; the offsets are non-decreasing, and they are strictly
increasing when no item of the buffer is empty. -/
theorem offsets_invariant (ByteLen : Nat) (keys values : List Bytes) (level : Int)
    (subtrees : List Nat) (_hne : keys ≠ []) (hlen : values.length = keys.length)
    (hk : sumLen keys < 65536) (hv : sumLen values < 65536)
    (hint : level ≠ 0 → 0 < ByteLen ∧ ∀ v ∈ values, v.length = ByteLen) :
    ∃ ks vs, getProllyMapKeys (SerializeProllyMap keys values level subtrees) = some ks ∧
      getProllyMapValues ByteLen (SerializeProllyMap keys values level subtrees) = some vs ∧
      (ks.Offs.length = 2 * (keys.length - 1) ∧ ks.offsets.length = keys.length - 1) ∧
      (vs.Offs.length = 2 * (keys.length - 1) ∧ vs.offsets.length = keys.length - 1) ∧
      (0 < sumLen keys → keys.length < 65536 →
        getProllyMapCount (SerializeProllyMap keys values level subtrees) = keys.length) ∧
      ks.offsets.Sorted (· ≤ ·) ∧ vs.offsets.Sorted (· ≤ ·) ∧
      ((∀ k ∈ keys, k ≠ []) → ks.offsets.Sorted (· < ·)) ∧
      ((∀ v ∈ values, v ≠ []) → vs.offsets.Sorted (· < ·)) := by
  refine ⟨_, _, getProllyMapKeys_serialize keys values level subtrees,
    getProllyMapValues_serialize ByteLen keys values level subtrees hint, ⟨?_, ?_⟩, ⟨?_, ?_⟩,
    ?_, ?_, ?_, ?_, ?_⟩
  · rw [length_flatMap_putUint16, writeItemOffsets_length]
  · rw [offsets_written, writeItemOffsets_length]
  · rw [length_flatMap_putUint16, writeItemOffsets_length, hlen]
  · rw [offsets_written, writeItemOffsets_length, hlen]
  · intro hpos hcnt
    exact getProllyMapCount_of_pos keys values level subtrees hpos hcnt
  · rw [offsets_written]
    exact writeItemOffsets_sorted_le keys _ hk
  · rw [offsets_written]
    exact writeItemOffsets_sorted_le values _ hv
  · intro hall
    rw [offsets_written]
    exact writeItemOffsets_sorted_lt keys _ hk hall
  · intro hall
    rw [offsets_written]
    exact writeItemOffsets_sorted_lt values _ hv hall

/-- The invariant on scenario A of the specification. -/
theorem offsets_invariant_witness :
    (([[97], [98], [99]] : List Bytes) ≠ [] ∧
      ([[49], [50], [51]] : List Bytes).length = ([[97], [98], [99]] : List Bytes).length ∧
      sumLen [[97], [98], [99]] < 65536 ∧ sumLen [[49], [50], [51]] < 65536 ∧
      ((0 : Int) ≠ 0 → 0 < 20 ∧ ∀ v ∈ ([[49], [50], [51]] : List Bytes), v.length = 20)) ∧
    ∃ ks vs,
      getProllyMapKeys (SerializeProllyMap [[97], [98], [99]] [[49], [50], [51]] 0 [])
        = some ks ∧
      getProllyMapValues 20 (SerializeProllyMap [[97], [98], [99]] [[49], [50], [51]] 0 [])
        = some vs ∧
      (ks.Offs.length = 2 * (([[97], [98], [99]] : List Bytes).length - 1) ∧
        ks.offsets.length = ([[97], [98], [99]] : List Bytes).length - 1) ∧
      (vs.Offs.length = 2 * (([[97], [98], [99]] : List Bytes).length - 1) ∧
        vs.offsets.length = ([[97], [98], [99]] : List Bytes).length - 1) ∧
      (0 < sumLen [[97], [98], [99]] → ([[97], [98], [99]] : List Bytes).length < 65536 →
        getProllyMapCount (SerializeProllyMap [[97], [98], [99]] [[49], [50], [51]] 0 [])
          = ([[97], [98], [99]] : List Bytes).length) ∧
      ks.offsets.Sorted (· ≤ ·) ∧ vs.offsets.Sorted (· ≤ ·) ∧
      ((∀ k ∈ ([[97], [98], [99]] : List Bytes), k ≠ []) → ks.offsets.Sorted (· < ·)) ∧
      ((∀ v ∈ ([[49], [50], [51]] : List Bytes), v ≠ []) → vs.offsets.Sorted (· < ·)) :=
  ⟨⟨by decide, by decide, by decide, by decide, fun h => absurd rfl h⟩,
    offsets_invariant 20 [[97], [98], [99]] [[49], [50], [51]] 0 [] (by decide) (by decide)
      (by decide) (by decide) (fun h => absurd rfl h)⟩

/-- C7 as stated fails.  With a zero-length middle key the key offsets are
`[1, 1]`, not strictly increasing; with two zero-length keys there is one
offset while `getProllyMapCount` is 0. -/
theorem offsets_invariant_fails :
    ((getProllyMapKeys (SerializeProllyMap [[97], [], [99]] [[1], [2], [3]] 0 [])).map
        SlicedBuffer.offsets = some [1, 1] ∧
      ¬ List.Sorted (· < ·) ([1, 1] : List Nat)) ∧
    ((getProllyMapKeys (SerializeProllyMap [[], []] [[1], [2]] 0 [])).map
        SlicedBuffer.offsets = some [0] ∧
      getProllyMapCount (SerializeProllyMap [[], []] [[1], [2]] 0 []) = 0) := by
  refine ⟨⟨by decide, by decide⟩, by decide, by decide⟩

end message

/-! ## Revert -/

namespace merge

theorem checkParents_none {Commit Root Opts : Type} (c : Collaborators Commit Root Opts)
    (commits : List Commit) (h : ∀ cm ∈ commits, (c.DatasParents cm).length ≠ 0) :
    checkParents c commits = none := by
  induction commits with
  | nil => rfl
  | cons cm rest ih =>
    rw [checkParents, if_neg (h cm (by simp))]
    exact ih (fun x hx => h x (by simp [hx]))

/-- One iteration of the second loop of `Revert`: it fails before merging, or
it merges and fails, or it merges a root that is neither in conflict nor in
violation and goes on with that root. -/
theorem revertLoop_cons {Commit Root Opts : Type} (c : Collaborators Commit Root Opts)
    (opts : Opts) (i : Nat) (baseCommit : Commit) (rest : List Commit) (root : Root)
    (msg : String) :
    ((revertLoop c opts i (baseCommit :: rest) root msg).merges = [] ∧
      ∃ e, (revertLoop c opts i (baseCommit :: rest) root msg).ret = failWith e) ∨
    (∃ call e, (revertLoop c opts i (baseCommit :: rest) root msg).merges = [call] ∧
      (revertLoop c opts i (baseCommit :: rest) root msg).ret = failWith e ∧
      call.ours = root ∧ call.baseCommit = baseCommit) ∨
    (∃ call res msg1,
      (revertLoop c opts i (baseCommit :: rest) root msg).merges
        = call :: (revertLoop c opts (i + 1) rest res.Root msg1).merges ∧
      (revertLoop c opts i (baseCommit :: rest) root msg).ret
        = (revertLoop c opts (i + 1) rest res.Root msg1).ret ∧
      call.ours = root ∧ call.baseCommit = baseCommit ∧ call.result = Except.ok res ∧
      call.flagged c = false) := by
  cases h1 : c.GetRootValue baseCommit with
  | error e => exact Or.inl (by simp only [revertLoop, h1]; exact ⟨trivial, _, rfl⟩)
  | ok baseRoot =>
  cases h2 : c.GetCommitMeta baseCommit with
  | error e => exact Or.inl (by simp only [revertLoop, h1, h2]; exact ⟨trivial, _, rfl⟩)
  | ok description =>
  cases h3 : c.ResolveParent baseCommit 0 with
  | error e => exact Or.inl (by simp only [revertLoop, h1, h2, h3]; exact ⟨trivial, _, rfl⟩)
  | ok optCmt =>
  cases optCmt with
  | none => exact Or.inl (by simp only [revertLoop, h1, h2, h3]; exact ⟨trivial, _, rfl⟩)
  | some parentCM =>
  cases h4 : c.GetRootValue parentCM with
  | error e => exact Or.inl (by simp only [revertLoop, h1, h2, h3, h4]; exact ⟨trivial, _, rfl⟩)
  | ok theirRoot =>
  cases h5 : c.MergeRoots root theirRoot baseRoot parentCM baseCommit opts false with
  | error e =>
    exact Or.inr (Or.inl (by
      simp only [revertLoop, h1, h2, h3, h4, h5]; exact ⟨_, _, rfl, rfl, rfl, rfl⟩))
  | ok result =>
  cases h6 : c.HasConflicts result.Root with
  | error e =>
    exact Or.inr (Or.inl (by
      simp only [revertLoop, h1, h2, h3, h4, h5, h6]; exact ⟨_, _, rfl, rfl, rfl, rfl⟩))
  | ok b6 =>
  cases b6 with
  | true =>
    exact Or.inr (Or.inl (by
      simp only [revertLoop, h1, h2, h3, h4, h5, h6]; exact ⟨_, _, rfl, rfl, rfl, rfl⟩))
  | false =>
  cases h7 : c.HasConstraintViolations result.Root with
  | error e =>
    exact Or.inr (Or.inl (by
      simp only [revertLoop, h1, h2, h3, h4, h5, h6, h7]; exact ⟨_, _, rfl, rfl, rfl, rfl⟩))
  | ok b7 =>
  cases b7 with
  | true =>
    exact Or.inr (Or.inl (by
      simp only [revertLoop, h1, h2, h3, h4, h5, h6, h7]; exact ⟨_, _, rfl, rfl, rfl, rfl⟩))
  | false =>
    refine Or.inr (Or.inr ?_)
    simp only [revertLoop, h1, h2, h3, h4, h5, h6, h7]
    refine ⟨_, result, _, rfl, rfl, rfl, rfl, rfl, ?_⟩
    simp [MergeCall.flagged, h6, h7]

theorem revertLoop_flagged {Commit Root Opts : Type} (c : Collaborators Commit Root Opts)
    (opts : Opts) (commits : List Commit) (i : Nat) (root : Root) (msg : String) (k : Nat)
    (call : MergeCall Commit Root)
    (hk : (revertLoop c opts i commits root msg).merges[k]? = some call)
    (hf : call.flagged c = true) :
    (∃ e, (revertLoop c opts i commits root msg).ret = failWith e) ∧
    (revertLoop c opts i commits root msg).merges.length = k + 1 := by
  induction commits generalizing i root msg k with
  | nil => simp [revertLoop] at hk
  | cons baseCommit rest ih =>
    rcases revertLoop_cons c opts i baseCommit rest root msg with
      ⟨hm, _⟩ | ⟨call1, e, hm, hr, _, _⟩ | ⟨call1, res, msg1, hm, hr, _, _, _, hnf⟩
    · rw [hm] at hk; simp at hk
    · rw [hm] at hk ⊢
      cases k with
      | zero => exact ⟨⟨e, hr⟩, rfl⟩
      | succ j => simp at hk
    · rw [hm] at hk ⊢
      rw [hr]
      cases k with
      | zero =>
        simp only [List.getElem?_cons_zero, Option.some.injEq] at hk
        rw [hk, hf] at hnf
        cases hnf
      | succ j =>
        simp only [List.getElem?_cons_succ] at hk
        have := ih (i + 1) res.Root msg1 j hk
        exact ⟨this.1, by simp [this.2]⟩

theorem revertLoop_order {Commit Root Opts : Type} (c : Collaborators Commit Root Opts)
    (opts : Opts) (commits : List Commit) (i : Nat) (root : Root) (msg : String) :
    (revertLoop c opts i commits root msg).merges.length ≤ commits.length ∧
    ∀ (k : Nat) (call : MergeCall Commit Root),
      (revertLoop c opts i commits root msg).merges[k]? = some call →
      commits[k]? = some call.baseCommit := by
  induction commits generalizing i root msg with
  | nil => simp [revertLoop]
  | cons baseCommit rest ih =>
    rcases revertLoop_cons c opts i baseCommit rest root msg with
      ⟨hm, _⟩ | ⟨call1, e, hm, _, _, hb⟩ | ⟨call1, res, msg1, hm, _, _, hb, _, _⟩
    · rw [hm]; simp
    · rw [hm]
      refine ⟨by simp, ?_⟩
      intro k call hk
      cases k with
      | zero =>
        simp only [List.getElem?_cons_zero, Option.some.injEq] at hk
        rw [← hk, hb]; simp
      | succ j => simp at hk
    · rw [hm]
      have := ih (i + 1) res.Root msg1
      refine ⟨by simp only [List.length_cons]; omega, ?_⟩
      intro k call hk
      cases k with
      | zero =>
        simp only [List.getElem?_cons_zero, Option.some.injEq] at hk
        rw [← hk, hb]; simp
      | succ j =>
        simp only [List.getElem?_cons_succ] at hk ⊢
        exact this.2 j call hk

theorem revertLoop_ours {Commit Root Opts : Type} (c : Collaborators Commit Root Opts)
    (opts : Opts) (commits : List Commit) (i : Nat) (root : Root) (msg : String) :
    (∀ call, (revertLoop c opts i commits root msg).merges[0]? = some call →
      call.ours = root) ∧
    ∀ (k : Nat) (prev next : MergeCall Commit Root),
      (revertLoop c opts i commits root msg).merges[k]? = some prev →
      (revertLoop c opts i commits root msg).merges[k + 1]? = some next →
      prev.result = Except.ok { Root := next.ours } := by
  induction commits generalizing i root msg with
  | nil => simp [revertLoop]
  | cons baseCommit rest ih =>
    rcases revertLoop_cons c opts i baseCommit rest root msg with
      ⟨hm, _⟩ | ⟨call1, e, hm, _, ho, _⟩ | ⟨call1, res, msg1, hm, _, ho, _, hres, _⟩
    · rw [hm]; simp
    · rw [hm]
      refine ⟨?_, ?_⟩
      · intro call hk
        simp only [List.getElem?_cons_zero, Option.some.injEq] at hk
        rw [← hk, ho]
      · intro k prev next _ hn
        simp at hn
    · rw [hm]
      have := ih (i + 1) res.Root msg1
      refine ⟨?_, ?_⟩
      · intro call hk
        simp only [List.getElem?_cons_zero, Option.some.injEq] at hk
        rw [← hk, ho]
      · intro k prev next hp hn
        simp only [List.getElem?_cons_succ] at hn
        cases k with
        | zero =>
          simp only [List.getElem?_cons_zero, Option.some.injEq] at hp
          rw [← hp, hres, this.1 next hn]
        | succ j =>
          simp only [List.getElem?_cons_succ] at hp
          exact this.2 j prev next hp hn

theorem revertLoop_success {Commit Root Opts : Type} (c : Collaborators Commit Root Opts)
    (opts : Opts) (commits : List Commit) (i : Nat) (root : Root) (msg : String)
    (hok : (revertLoop c opts i commits root msg).ret.err = none) :
    (revertLoop c opts i commits root msg).merges.length = commits.length ∧
    (∀ call ∈ (revertLoop c opts i commits root msg).merges, call.flagged c = false) ∧
    (((revertLoop c opts i commits root msg).merges = [] ∧
        (revertLoop c opts i commits root msg).ret.root = some root) ∨
      ∃ call res, (revertLoop c opts i commits root msg).merges.getLast? = some call ∧
        call.result = Except.ok res ∧
        (revertLoop c opts i commits root msg).ret.root = some res.Root) := by
  induction commits generalizing i root msg with
  | nil => simp [revertLoop]
  | cons baseCommit rest ih =>
    rcases revertLoop_cons c opts i baseCommit rest root msg with
      ⟨_, e, hr⟩ | ⟨call1, e, _, hr, _, _⟩ | ⟨call1, res, msg1, hm, hr, _, _, hres, hnf⟩
    · rw [hr] at hok; simp [failWith] at hok
    · rw [hr] at hok; simp [failWith] at hok
    · rw [hr] at hok
      have := ih (i + 1) res.Root msg1 hok
      rw [hm, hr]
      refine ⟨by simp [this.1], ?_, Or.inr ?_⟩
      · intro call hc
        simp only [List.mem_cons] at hc
        rcases hc with hc | hc
        · rw [hc]; exact hnf
        · exact this.2.1 call hc
      · rcases this.2.2 with ⟨he, hroot⟩ | ⟨call2, res2, hl, hres2, hroot⟩
        · exact ⟨call1, res, by rw [he]; rfl, hres, hroot⟩
        · refine ⟨call2, res2, ?_, hres2, hroot⟩
          rw [List.getLast?_cons, hl]
          rfl

theorem revertLoop_returns {Commit Root Opts : Type} (c : Collaborators Commit Root Opts)
    (opts : Opts) (commits : List Commit) (i : Nat) (root : Root) (msg : String)
    (hroot : ∀ cm, ∃ r, c.GetRootValue cm = Except.ok r)
    (hmeta : ∀ cm, ∃ d, c.GetCommitMeta cm = Except.ok d)
    (hparent : ∀ cm ∈ commits, ∃ p, c.ResolveParent cm 0 = Except.ok (some p))
    (hmerge : ∀ o t b p bc, ∃ res, c.MergeRoots o t b p bc opts false = Except.ok res)
    (hconf : ∀ r, c.HasConflicts r = Except.ok false)
    (hviol : ∀ r, c.HasConstraintViolations r = Except.ok false) :
    (revertLoop c opts i commits root msg).ret.err = none := by
  induction commits generalizing i root msg with
  | nil => simp [revertLoop]
  | cons baseCommit rest ih =>
    obtain ⟨baseRoot, h1⟩ := hroot baseCommit
    obtain ⟨description, h2⟩ := hmeta baseCommit
    obtain ⟨parentCM, h3⟩ := hparent baseCommit (by simp)
    obtain ⟨theirRoot, h4⟩ := hroot parentCM
    obtain ⟨result, h5⟩ := hmerge root theirRoot baseRoot parentCM baseCommit
    simp only [revertLoop, h1, h2, h3, h4, h5, hconf, hviol]
    exact ih _ _ _ (fun cm hcm => hparent cm (by simp [hcm]))

/-- C9: for commits that each have at least one parent, (1) if the root
returned by some `MergeRoots` call has conflicts or constraint violations, then
`Revert` returns a non-nil error, a nil root and an empty message, and that call
is the last merge made; (2) the merges are made on the commits in the order
given; (3) the first merge takes `root` as its "ours" root and every later merge
takes the root returned by the merge before it; (4) when `Revert` returns no
error every commit was merged, no merged root was in conflict or violation, and
the root returned is the one of the last merge; (5) and it does return no error
when no collaborator fails and no root is in conflict or violation. -/
theorem revert_errors_on_conflicts {Commit Root Opts : Type}
    (c : Collaborators Commit Root Opts) (root : Root) (commits : List Commit) (opts : Opts)
    (hparents : ∀ cm ∈ commits, (c.DatasParents cm).length ≠ 0) :
    (∀ (k : Nat) (call : MergeCall Commit Root),
      (Revert c root commits opts).merges[k]? = some call → call.flagged c = true →
      (Revert c root commits opts).ret.err ≠ none ∧
      (Revert c root commits opts).ret.root = none ∧
      (Revert c root commits opts).ret.message = "" ∧
      (Revert c root commits opts).merges.length = k + 1) ∧
    ((Revert c root commits opts).merges.length ≤ commits.length ∧
      ∀ (k : Nat) (call : MergeCall Commit Root),
        (Revert c root commits opts).merges[k]? = some call →
        commits[k]? = some call.baseCommit) ∧
    ((∀ call, (Revert c root commits opts).merges[0]? = some call → call.ours = root) ∧
      ∀ (k : Nat) (prev next : MergeCall Commit Root),
        (Revert c root commits opts).merges[k]? = some prev →
        (Revert c root commits opts).merges[k + 1]? = some next →
        prev.result = Except.ok { Root := next.ours }) ∧
    ((Revert c root commits opts).ret.err = none →
      (Revert c root commits opts).merges.length = commits.length ∧
      (∀ call ∈ (Revert c root commits opts).merges, call.flagged c = false) ∧
      (((Revert c root commits opts).merges = [] ∧
          (Revert c root commits opts).ret.root = some root) ∨
        ∃ call res, (Revert c root commits opts).merges.getLast? = some call ∧
          call.result = Except.ok res ∧
          (Revert c root commits opts).ret.root = some res.Root)) ∧
    ((∀ cm, ∃ r, c.GetRootValue cm = Except.ok r) →
      (∀ cm, ∃ d, c.GetCommitMeta cm = Except.ok d) →
      (∀ cm ∈ commits, ∃ p, c.ResolveParent cm 0 = Except.ok (some p)) →
      (∀ o t b p bc, ∃ res, c.MergeRoots o t b p bc opts false = Except.ok res) →
      (∀ r, c.HasConflicts r = Except.ok false) →
      (∀ r, c.HasConstraintViolations r = Except.ok false) →
      (Revert c root commits opts).ret.err = none) := by
  have hrun : Revert c root commits opts = revertLoop c opts 0 commits root "Revert" := by
    rw [Revert, checkParents_none c commits hparents]
  rw [hrun]
  refine ⟨?_, revertLoop_order c opts commits 0 root _, revertLoop_ours c opts commits 0 root _,
    revertLoop_success c opts commits 0 root _, ?_⟩
  · intro k call hk hf
    obtain ⟨⟨e, he⟩, hlen⟩ := revertLoop_flagged c opts commits 0 root _ k call hk hf
    rw [he]
    exact ⟨by simp [failWith], rfl, rfl, hlen⟩
  · intro hroot hmeta hparent hmerge hconf hviol
    exact revertLoop_returns c opts commits 0 root _ hroot hmeta hparent hmerge hconf hviol

/-- Reverting commits 3, 7 and 5 of the example history: the merge of commit 7
is in conflict, `Revert` fails and commit 5 is never merged. -/
theorem revert_errors_on_conflicts_witness :
    (∀ cm ∈ ([3, 7, 5] : List Nat), (exampleHistory.DatasParents cm).length ≠ 0) ∧
    ((Revert exampleHistory [100] [3, 7, 5] ()).merges.map
      (fun call => (call.baseCommit, call.ours, call.flagged exampleHistory))
        = [(3, [100], false), (7, [100, 3], true)]) ∧
    ∀ (k : Nat) (call : MergeCall Nat (List Nat)),
      (Revert exampleHistory [100] [3, 7, 5] ()).merges[k]? = some call →
      call.flagged exampleHistory = true →
      (Revert exampleHistory [100] [3, 7, 5] ()).ret.err ≠ none ∧
      (Revert exampleHistory [100] [3, 7, 5] ()).ret.root = none ∧
      (Revert exampleHistory [100] [3, 7, 5] ()).ret.message = "" ∧
      (Revert exampleHistory [100] [3, 7, 5] ()).merges.length = k + 1 :=
  ⟨by decide, by decide,
    (revert_errors_on_conflicts exampleHistory [100] [3, 7, 5] () (by decide)).1⟩

end merge

/-! ## MemoryRepoState -/

namespace env

/-- C10: `SetCWBHeadRef` returns a nil error and leaves the caller's
`MemoryRepoState` unchanged, so that `CWBHeadRef` still returns the former head
(which is not `r.Ref` unless it already was); the assignment reaches only the
copy the method body runs on. -/
theorem setCWBHeadRef_no_effect {DB Ref : Type} (m : MemoryRepoState DB Ref)
    (r : MarshalableRef Ref) :
    (m.SetCWBHeadRef r).2 = none ∧
    (m.SetCWBHeadRef r).1 = m ∧
    (m.SetCWBHeadRef r).1.CWBHeadRef = m.CWBHeadRef ∧
    (r.Ref ≠ m.Head → (m.SetCWBHeadRef r).1.CWBHeadRef ≠ r.Ref) ∧
    (SetCWBHeadRefBody m r).1.Head = r.Ref :=
  ⟨rfl, rfl, rfl, fun h e => h e.symm, rfl⟩

/-- Setting the head of a state on "main" to "feature": the head read back is
still "main". -/
theorem setCWBHeadRef_no_effect_witness :
    (({ DoltDB := (), Head := "main" } : MemoryRepoState Unit String).SetCWBHeadRef
      { Ref := "feature" }).2 = none ∧
    (({ DoltDB := (), Head := "main" } : MemoryRepoState Unit String).SetCWBHeadRef
      { Ref := "feature" }).1.CWBHeadRef = "main" ∧
    (({ DoltDB := (), Head := "main" } : MemoryRepoState Unit String).SetCWBHeadRef
      { Ref := "feature" }).1.CWBHeadRef ≠ "feature" :=
  ⟨(setCWBHeadRef_no_effect ({ DoltDB := (), Head := "main" } : MemoryRepoState Unit String)
      { Ref := "feature" }).1,
    rfl, by decide⟩

end env
